import Mathlib

/-!
Shallow embedding of the linearization and block-accumulation layer of the
gtsam excerpt (gtsam/slam/RegularJacobianFactor.h together with
GeneralSFMFactor, and gtsam/discrete/Assignment.h), over exact rational
arithmetic.  Machine doubles are modelled by rationals, so the algebraic
structure of each routine is captured exactly; raw double buffers are
modelled as total functions from indices to rationals.
-/

namespace GtsamSpec

/-- Modelled from the spec: section 4.1 describes the noise-model hierarchy
(gtsam/linear/NoiseModel.h is not part of the excerpt).  A unit model whitens
by the identity, a diagonal model scales each residual component by the
reciprocal standard deviation, and a constrained model has zero-variance
components, whitening of which leaves the component untouched. -/
inductive NoiseModel (n : ℕ) : Type where
  | unit : NoiseModel n
  | diagonal (invsigmas : Fin n → ℚ) : NoiseModel n
  | constrained (invsigmas : Fin n → ℚ) (zeroVar : Fin n → Bool) : NoiseModel n

namespace NoiseModel

/-- True exactly on the unit variant, mirroring the virtual isUnit test. -/
def isUnit {n : ℕ} : NoiseModel n → Bool
  | .unit => true
  | _ => false

/-- True exactly on the constrained variant, mirroring isConstrained. -/
def isConstrained {n : ℕ} : NoiseModel n → Bool
  | .constrained _ _ => true
  | _ => false

/-- Per-component whitening factor of the model. -/
def scale {n : ℕ} : NoiseModel n → Fin n → ℚ
  | .unit => fun _ => 1
  | .diagonal invsigmas => invsigmas
  | .constrained invsigmas zeroVar => fun i => if zeroVar i then 1 else invsigmas i

/-- Modelled from the spec: whitening maps a residual into the
square-root-precision space by componentwise scaling. -/
def whiten {n : ℕ} (m : NoiseModel n) (v : Fin n → ℚ) : Fin n → ℚ :=
  fun i => m.scale i * v i

/-- Modelled from the spec: whitening of a Jacobian block whitens every
column, i.e. scales every row of the block. -/
def whitenMat {n k : ℕ} (m : NoiseModel n) (A : Matrix (Fin n) (Fin k) ℚ) :
    Matrix (Fin n) (Fin k) ℚ :=
  Matrix.of fun r c => m.scale r * A r c

/-- Modelled from the spec: unitVariant strips the covariance scale but keeps
the equality-constraint structure (Constrained::unit of the full library). -/
def unitVariant {n : ℕ} : NoiseModel n → NoiseModel n
  | .constrained _ zeroVar => .constrained (fun i => if zeroVar i then 0 else 1) zeroVar
  | _ => .unit

end NoiseModel

/-- Read the D-wide segment of a raw buffer that starts at offset D * k,
mirroring ConstDMap(x + D * k). -/
def xseg (D : ℕ) (x : ℕ → ℚ) (k : ℕ) : Fin D → ℚ := fun i => x (D * k + i)

/-- Add a D-vector into a raw buffer at a given offset, mirroring
DMap(y + off) += v; entries outside the segment are untouched. -/
def addSeg (D : ℕ) (y : ℕ → ℚ) (off : ℕ) (v : Fin D → ℚ) : ℕ → ℚ :=
  fun i => if h : off ≤ i ∧ i - off < D then y i + v ⟨i - off, h.2⟩ else y i

/-- RegularJacobianFactor with fixed block width D: an ordered list of
(key, block) terms, the right-hand side, and an optional diagonal noise
model, as stored by the JacobianFactor base. -/
structure RegularJacobianFactor (D : ℕ) : Type where
  rows : ℕ
  terms : List (ℕ × Matrix (Fin rows) (Fin D) ℚ)
  b : Fin rows → ℚ
  model : Option (NoiseModel rows)

namespace RegularJacobianFactor

/-- Raw-memory multiplyHessianAdd (the overload addressing x and y at
offsets D * key): y += alpha * A^T * (whiten twice if a model is attached) * A * x. -/
def multiplyHessianAdd {D : ℕ} (f : RegularJacobianFactor D) (alpha : ℚ)
    (x y : ℕ → ℚ) : ℕ → ℚ :=
  if f.terms.isEmpty then y
  else
    let Ax : Fin f.rows → ℚ :=
      f.terms.foldl (fun acc t => acc + t.2.mulVec (xseg D x t.1)) 0
    let Axw : Fin f.rows → ℚ :=
      match f.model with
      | some m => m.whiten (m.whiten Ax)
      | none => Ax
    let Axa : Fin f.rows → ℚ := fun i => alpha * Axw i
    f.terms.foldl (fun acc t => addSeg D acc (D * t.1) (t.2.transpose.mulVec Axa)) y

/-- Raw-memory hessianDiagonal: for the j-th term the vector of columnwise
squared norms is added at offset D * j (the loop index, exactly as in the
source, which does NOT use the key here). -/
def hessianDiagonalRaw {D : ℕ} (f : RegularJacobianFactor D) (d : ℕ → ℚ) : ℕ → ℚ :=
  f.terms.enum.foldl
    (fun acc jt => addSeg D acc (D * jt.1) (fun k => ∑ r, jt.2.2 r k ^ 2)) d

/-- Raw-memory gradientAtZero: the body of the source function is entirely
commented out, so the buffer is returned unchanged. -/
def gradientAtZeroRaw {D : ℕ} (_f : RegularJacobianFactor D) (d : ℕ → ℚ) : ℕ → ℚ := d

end RegularJacobianFactor

/-- Apply the whitening transform of an optional model twice (the precision
scaling of the matrix-free product); no model means no scaling. -/
def whiten2 {r : ℕ} : Option (NoiseModel r) → (Fin r → ℚ) → (Fin r → ℚ)
  | some m, v => m.whiten (m.whiten v)
  | none, v => v

/-- The symmetric block accumulator (SymmetricBlockMatrix): per-slot block
dimensions, the last slot being the reserved bias slot, and the dense scalar
storage.  Only the upper block triangle is meaningful; each symmetric
diagonal block is modelled by its full (symmetric) matrix, which is
observationally equivalent to the upper-triangular storage read through the
self-adjoint view. -/
structure BlockInfo : Type where
  dims : List ℕ
  entries : ℕ → ℕ → ℚ

namespace BlockInfo

/-- Scalar offset of the first row/column of a slot. -/
def off (info : BlockInfo) (s : ℕ) : ℕ := ((info.dims.take s).sum)

/-- Number of blocks, the bias slot included (nBlocks of the source). -/
def nBlocks (info : BlockInfo) : ℕ := info.dims.length

/-- Add a dense block contribution at block position (si, sj). -/
def addBlock {m k : ℕ} (info : BlockInfo) (si sj : ℕ)
    (M : Matrix (Fin m) (Fin k) ℚ) : BlockInfo :=
  { info with
    entries := fun r c =>
      if h : info.off si ≤ r ∧ r - info.off si < m ∧ info.off sj ≤ c ∧ c - info.off sj < k then
        info.entries r c + M ⟨r - info.off si, h.2.1⟩ ⟨c - info.off sj, h.2.2.2⟩
      else info.entries r c }

/-- Add a block contribution addressed in the canonical
(lower slot, higher slot) order, transposing when required, exactly as the
block accessor of SymmetricBlockMatrix does. -/
def addBlockSym {m k : ℕ} (info : BlockInfo) (si sj : ℕ)
    (M : Matrix (Fin m) (Fin k) ℚ) : BlockInfo :=
  if si ≤ sj then info.addBlock si sj M else info.addBlock sj si M.transpose

/-- Overwrite one scalar entry of the dense storage; this models the
assignment (*info)(slotB, slotB)(0,0) = ... of the source, which is an
assignment and not an accumulation. -/
def setEntry (info : BlockInfo) (r0 c0 : ℕ) (v : ℚ) : BlockInfo :=
  { info with
    entries := fun r c => if r = r0 ∧ c = c0 then v else info.entries r c }

/-- Read the storage as a full symmetric matrix: the upper triangle is the
stored one, the lower triangle mirrors it. -/
def symmEntry (info : BlockInfo) (i j : ℕ) : ℚ :=
  if i ≤ j then info.entries i j else info.entries j i

end BlockInfo

/-- Slot lookup: position of a key inside the infoKeys ordering
(GaussianFactor::Slot, i.e. std::find). -/
def Slot (infoKeys : List ℕ) (key : ℕ) : ℕ := infoKeys.indexOf key

/-- The fixed-size binary linear factor produced by GeneralSFMFactor
linearization: two Jacobian blocks of two rows, the residual b, and an
optional noise model. -/
structure BinaryJacobianFactor (DimC DimL : ℕ) : Type where
  key1 : ℕ
  A1 : Matrix (Fin 2) (Fin DimC) ℚ
  key2 : ℕ
  A2 : Matrix (Fin 2) (Fin DimL) ℚ
  b : Fin 2 → ℚ
  model : Option (NoiseModel 2)

/-- A vector viewed as a one-column block. -/
def colVec {k : ℕ} (v : Fin k → ℚ) : Matrix (Fin k) (Fin 1) ℚ :=
  Matrix.of fun i _ => v i

namespace BinaryJacobianFactor

/-- The five additive block writes shared by the fixed-size update path of
the source: A1^T A1 at (slot1, slot1), A1^T A2 at (slot1, slot2), A1^T b at
(slot1, slotB), A2^T A2 at (slot2, slot2) and A2^T b at (slot2, slotB), in
source order. -/
def updateABlocks {DimC DimL : ℕ} (infoKeys : List ℕ)
    (f : BinaryJacobianFactor DimC DimL) (info : BlockInfo) : BlockInfo :=
  let s1 := Slot infoKeys f.key1
  let s2 := Slot infoKeys f.key2
  let sB := info.nBlocks - 1
  ((((info.addBlockSym s1 s1 (f.A1.transpose * f.A1)).addBlockSym s1 s2
      (f.A1.transpose * f.A2)).addBlockSym s1 sB
      (colVec (f.A1.transpose.mulVec f.b))).addBlockSym s2 s2
      (f.A2.transpose * f.A2)).addBlockSym s2 sB
      (colVec (f.A2.transpose.mulVec f.b))

/-- The fixed-size update branch of BinaryJacobianFactor::updateHessian
(taken when the model is null or unit): the five additive block writes
followed by the scalar bias write, which the source performs with = rather
than +=. -/
def directUpdateHessian {DimC DimL : ℕ} (infoKeys : List ℕ)
    (f : BinaryJacobianFactor DimC DimL) (info : BlockInfo) : BlockInfo :=
  let sB := info.nBlocks - 1
  let i5 := updateABlocks infoKeys f info
  i5.setEntry (i5.off sB) (i5.off sB) (∑ r, f.b r * f.b r)

/-- Modelled from the spec: the generic JacobianFactor::updateHessian used
on the whitened-factor branch is not part of the excerpt; section 4.3 states
every block contribution is added, the scalar bias block included. -/
def genericUpdateHessian {DimC DimL : ℕ} (infoKeys : List ℕ)
    (f : BinaryJacobianFactor DimC DimL) (info : BlockInfo) : BlockInfo :=
  let sB := info.nBlocks - 1
  let i5 := updateABlocks infoKeys f info
  i5.addBlockSym sB sB (Matrix.of fun (_ _ : Fin 1) => ∑ r, f.b r * f.b r)

/-- Modelled from the spec: JacobianFactor::whiten (not part of the excerpt)
whitens both Jacobian blocks and the residual and carries a unit model
afterwards (section 4.3 step 1). -/
def whitenFactor {DimC DimL : ℕ} (f : BinaryJacobianFactor DimC DimL) :
    BinaryJacobianFactor DimC DimL :=
  match f.model with
  | some m =>
      { f with
        A1 := m.whitenMat f.A1
        A2 := m.whitenMat f.A2
        b := m.whiten f.b
        model := some .unit }
  | none => f

/-- The exception message thrown by the source on the constrained path. -/
def updateHessianErrorMsg : String :=
  "BinaryJacobianFactor::updateHessian: cannot update information with constrained noise model"

/-- BinaryJacobianFactor::updateHessian.  The result carries the optional
exception message together with the accumulator state after the call; a
thrown exception leaves the accumulator untouched because the source throws
before performing any block write. -/
def updateHessian {DimC DimL : ℕ} (infoKeys : List ℕ)
    (f : BinaryJacobianFactor DimC DimL) (info : BlockInfo) :
    Option String × BlockInfo :=
  match f.model with
  | some m =>
      if m.isUnit then (none, directUpdateHessian infoKeys f info)
      else if m.isConstrained then (some updateHessianErrorMsg, info)
      else (none, genericUpdateHessian infoKeys (whitenFactor f) info)
  | none => (none, directUpdateHessian infoKeys f info)

/-- View a binary factor whose two blocks have the same width D as a
RegularJacobianFactor, in term order. -/
def toRegular {D : ℕ} (f : BinaryJacobianFactor D D) : RegularJacobianFactor D :=
  { rows := 2, terms := [(f.key1, f.A1), (f.key2, f.A2)], b := f.b, model := f.model }

end BinaryJacobianFactor

/-- GeneralSFMFactor: a binary measurement factor holding the two keys, the
2-D measurement, and the shared noise model. -/
structure GeneralSFMFactor (DimC DimL : ℕ) : Type where
  key1 : ℕ
  key2 : ℕ
  measured : Fin 2 → ℚ
  model : Option (NoiseModel 2)

/-- Modelled from the spec: the external camera projection provider of
section 6 (camera.project2, not part of the excerpt) either returns a 2-D
prediction with the two Jacobian blocks, or signals the projection-cheirality
condition, which the source observes as a CheiralityException. -/
inductive ProjResult (DimC DimL : ℕ) : Type where
  | ok (pred : Fin 2 → ℚ) (H1 : Matrix (Fin 2) (Fin DimC) ℚ)
      (H2 : Matrix (Fin 2) (Fin DimL) ℚ) : ProjResult DimC DimL
  | cheirality : ProjResult DimC DimL

namespace GeneralSFMFactor

/-- GeneralSFMFactor::evaluateError at a projection outcome: the reprojection
error h(x) - z with the Jacobian blocks, or all zeros when the projection
signalled cheirality (the catch branch). -/
def evaluateError {DimC DimL : ℕ} (f : GeneralSFMFactor DimC DimL)
    (proj : ProjResult DimC DimL) :
    (Fin 2 → ℚ) × Matrix (Fin 2) (Fin DimC) ℚ × Matrix (Fin 2) (Fin DimL) ℚ :=
  match proj with
  | .ok pred H1 H2 => (fun i => pred i - f.measured i, H1, H2)
  | .cheirality => (fun _ => 0, 0, 0)

/-- GeneralSFMFactor::linearize at a projection outcome: inactive factors
yield nothing; otherwise b is the negated reprojection error (or everything
zero on cheirality), the system is whitened when a non-unit model is
attached, and the returned factor carries the unit variant of a constrained
model or no model at all. -/
def linearize {DimC DimL : ℕ} (f : GeneralSFMFactor DimC DimL) (active : Bool)
    (proj : ProjResult DimC DimL) : Option (BinaryJacobianFactor DimC DimL) :=
  if !active then none
  else
    let hb : Matrix (Fin 2) (Fin DimC) ℚ × Matrix (Fin 2) (Fin DimL) ℚ × (Fin 2 → ℚ) :=
      match proj with
      | .ok pred H1 H2 => (H1, H2, fun i => -(pred i - f.measured i))
      | .cheirality => (0, 0, fun _ => 0)
    let w : Matrix (Fin 2) (Fin DimC) ℚ × Matrix (Fin 2) (Fin DimL) ℚ × (Fin 2 → ℚ) :=
      match f.model with
      | some m =>
          if m.isUnit then hb
          else (m.whitenMat hb.1, m.whitenMat hb.2.1, m.whiten hb.2.2)
      | none => hb
    match f.model with
    | some m =>
        if m.isConstrained then
          some ⟨f.key1, w.1, f.key2, w.2.1, w.2.2, some m.unitVariant⟩
        else some ⟨f.key1, w.1, f.key2, w.2.1, w.2.2, none⟩
    | none => some ⟨f.key1, w.1, f.key2, w.2.1, w.2.2, none⟩

end GeneralSFMFactor

/-- The empty accumulator for n variable slots of width D plus the trailing
one-dimensional bias slot. -/
def zeroInfo (n D : ℕ) : BlockInfo :=
  { dims := List.replicate n D ++ [1], entries := fun _ _ => 0 }

/-- Assemble the information matrix of a list of binary factors by folding
updateHessian over the accumulator, with the identity slot assignment
(key k occupies slot k, infoKeys = range n). -/
def assembleInfo (n D : ℕ) (fs : List (BinaryJacobianFactor D D)) : BlockInfo :=
  fs.foldl (fun acc f => (f.updateHessian (List.range n) acc).2) (zeroInfo n D)

/-- Accumulate the matrix-free products of a list of binary factors on a
zero-initialized output buffer with alpha = 1. -/
def accumulateProducts (D : ℕ) (fs : List (BinaryJacobianFactor D D))
    (x : ℕ → ℚ) : ℕ → ℚ :=
  fs.foldl (fun y f => f.toRegular.multiplyHessianAdd 1 x y) (fun _ => 0)

/-- The noise models admitted by the matrix-free equivalence claim: unit or
non-constrained diagonal. -/
def modelOK : Option (NoiseModel 2) → Bool
  | some .unit => true
  | some (.diagonal _) => true
  | _ => false

section AssignmentDefs

variable {L : Type} [DecidableEq L]

/-- The inner for-loop of Assignment::CartesianProduct: increment the value
of the current label; stop with true on a strict carry-free increment
(the break), otherwise wrap the value to zero and continue; falling off the
end yields false (j == keys.size()). -/
def innerLoop : List (L × ℕ) → (L → ℕ) → (L → ℕ) × Bool
  | [], v => (v, false)
  | k :: ks, v =>
      let v1 := Function.update v k.1 (v k.1 + 1)
      if v1 k.1 < k.2 then (v1, true)
      else innerLoop ks (Function.update v1 k.1 0)

/-- The while(1) loop of Assignment::CartesianProduct as a fuel-indexed
iteration: push the current assignment, run the inner loop, and stop when it
fell off the end.  none means the loop did not finish within the given
number of iterations. -/
def outerLoop (keys : List (L × ℕ)) : ℕ → (L → ℕ) → List (L → ℕ) → Option (List (L → ℕ))
  | 0, _, _ => none
  | fuel + 1, values, acc =>
      let acc1 := acc ++ [values]
      let r := innerLoop keys values
      if r.2 then outerLoop keys fuel r.1 acc1 else some acc1

/-- The initialization loop: every listed label is set to 0 (the std::map
defaults absent labels to 0 as well, modelled by the all-zero base
function). -/
def initValues (keys : List (L × ℕ)) : L → ℕ :=
  keys.foldl (fun v k => Function.update v k.1 0) (fun _ => 0)

/-- Assignment::CartesianProduct, with the while(1) loop given an explicit
iteration budget; an assignment is a total function on labels that is
meaningful on the listed labels. -/
def CartesianProduct (keys : List (L × ℕ)) (fuel : ℕ) : Option (List (L → ℕ)) :=
  outerLoop keys fuel (initValues keys) []

/-- Effective radix of one cardinality: a cardinality of 0 behaves like 1 in
the increment loop (the freshly incremented value 1 is never below the
cardinality, so the digit always wraps). -/
def radix (c : ℕ) : ℕ := max c 1

/-- The mixed-radix counter step on a digit list, mirroring the inner loop
digit by digit. -/
def incList : List ℕ → List ℕ → List ℕ × Bool
  | c :: cs, d :: ds =>
      if d + 1 < c then ((d + 1) :: ds, true)
      else
        let r := incList cs ds
        (0 :: r.1, r.2)
  | _, _ => ([], false)

/-- Digits of a counter value, first listed cardinality fastest. -/
def toDigits : List ℕ → ℕ → List ℕ
  | [], _ => []
  | c :: cs, k => k % radix c :: toDigits cs (k / radix c)

/-- Number of outer-loop iterations: the product of the effective radixes. -/
def radProd (cs : List ℕ) : ℕ := (cs.map radix).prod

/-- Counter value of a digit list, inverse of toDigits on bounded digits. -/
def fromDigits : List ℕ → List ℕ → ℕ
  | c :: cs, d :: ds => d + radix c * fromDigits cs ds
  | _, _ => 0

/-- The assignment function holding a digit list on the listed labels. -/
def assignDigits : List (L × ℕ) → List ℕ → L → ℕ
  | kp :: ks, d :: ds => Function.update (assignDigits ks ds) kp.1 d
  | _, _ => fun _ => 0

end AssignmentDefs

/-- A key list with a duplicated label, on which the source loop never
terminates. -/
def dupKeys : List (ℕ × ℕ) := [(0, 2), (0, 2)]

/-- Concrete factor for the raw hessianDiagonal evaluation: one term whose
key is 1, carrying the one-by-one block [1]. -/
def hdFactor : RegularJacobianFactor 1 :=
  { rows := 1, terms := [(1, Matrix.of fun _ _ => 1)], b := fun _ => 0, model := none }

/-- Concrete binary factor with zero blocks, residual (1, 0) and no model. -/
def bf1 : BinaryJacobianFactor 1 1 := ⟨0, 0, 1, 0, ![1, 0], none⟩

/-- Concrete binary factor with zero blocks, residual (2, 0) and no model. -/
def bf2 : BinaryJacobianFactor 1 1 := ⟨0, 0, 1, 0, ![2, 0], none⟩

/-- Concrete accumulator with two one-dimensional variable slots and the
bias slot, all entries zero. -/
def infoZ : BlockInfo := { dims := [1, 1, 1], entries := fun _ _ => 0 }

/-- Concrete SFM factor on keys 0 and 1 with measurement (0,0), no model. -/
def sfmEx : GeneralSFMFactor 1 1 := ⟨0, 1, ![0, 0], none⟩

/-- The all-zero binary factor produced by linearizing at a cheirality
failure with no model attached. -/
def zeroBJF : BinaryJacobianFactor 1 1 := ⟨0, 0, 1, 0, fun _ => 0, none⟩

/-- Concrete non-unit, non-constrained diagonal model on two components. -/
def diagEx : NoiseModel 2 := .diagonal ![2, 3]

/-- Concrete SFM factor carrying the diagonal model. -/
def sfmDiag : GeneralSFMFactor 1 1 := ⟨0, 1, ![0, 0], some diagEx⟩

/-- Concrete constrained model with both components of zero variance. -/
def constrEx : NoiseModel 2 := .constrained ![0, 0] (fun _ => true)

/-- Concrete binary factor carrying the constrained model. -/
def bfConstr : BinaryJacobianFactor 1 1 := ⟨0, 0, 1, 0, ![1, 0], some constrEx⟩

/-- Concrete unit-model binary factor on keys 0 and 1 with all-ones blocks. -/
def bfU : BinaryJacobianFactor 1 1 :=
  ⟨0, Matrix.of fun _ _ => 1, 1, Matrix.of fun _ _ => 1, ![1, 2], some .unit⟩

/-! ## Theorems -/

theorem list_foldl_add {α M : Type*} [AddMonoid M] (g : α → M) (l : List α) (init : M) :
    l.foldl (fun acc t => acc + g t) init = init + (l.map g).sum := by
  induction l generalizing init with
  | nil => simp
  | cons a l ih => simp [ih, add_assoc]

theorem addSeg_apply (D : ℕ) (y : ℕ → ℚ) (off : ℕ) (v : Fin D → ℚ) (i : ℕ) :
    addSeg D y off v i
      = y i + (if h : off ≤ i ∧ i - off < D then v ⟨i - off, h.2⟩ else 0) := by
  unfold addSeg
  split <;> simp

theorem scatter_foldl_gen {α : Type*} {D : ℕ} (l : List α) (off : α → ℕ)
    (v : α → Fin D → ℚ) (y : ℕ → ℚ) (i : ℕ) :
    (l.foldl (fun acc t => addSeg D acc (off t) (v t)) y) i
    = y i + (l.map (fun t =>
        if h : off t ≤ i ∧ i - off t < D then v t ⟨i - off t, h.2⟩ else 0)).sum := by
  induction l generalizing y with
  | nil => simp
  | cons a l ih => simp [ih, addSeg_apply, add_assoc]

theorem scatter_foldl_apply {r D : ℕ} (l : List (ℕ × Matrix (Fin r) (Fin D) ℚ))
    (v : Fin r → ℚ) (y : ℕ → ℚ) (i : ℕ) :
    (l.foldl (fun acc t => addSeg D acc (D * t.1) (t.2.transpose.mulVec v)) y) i
    = y i + (l.map (fun t =>
        if h : D * t.1 ≤ i ∧ i - D * t.1 < D then
          (t.2.transpose.mulVec v) ⟨i - D * t.1, h.2⟩ else 0)).sum := by
  induction l generalizing y with
  | nil => simp
  | cons a l ih => simp [ih, addSeg_apply, add_assoc]

theorem indexOf_range {k n : ℕ} (h : k < n) : (List.range n).indexOf k = k := by
  induction n with
  | zero => omega
  | succ n ih =>
    rw [List.range_succ]
    rcases Nat.lt_or_ge k n with hk | hk
    · rw [List.indexOf_append_of_mem (by simpa using hk)]
      exact ih hk
    · have hkn : k = n := by omega
      subst hkn
      rw [List.indexOf_append_of_not_mem (by simp)]
      simp [List.indexOf_cons]

/-- C5: the raw-memory multiplyHessianAdd computes Ax as the sum over
variables of A_i times the D-segment of x at offset D key_i, applies the
whitening transform twice exactly when a model is attached (and not at all
otherwise), scales by alpha, and scatter-adds A_i transposed times the
result at each key offset; entries of y outside the key segments are
unchanged, and an empty factor leaves y entirely unchanged. -/
theorem multiplyHessianAdd_correct {D : ℕ} (f : RegularJacobianFactor D)
    (alpha : ℚ) (x y : ℕ → ℚ) :
    (f.terms = [] → f.multiplyHessianAdd alpha x y = y)
    ∧ (∀ i : ℕ, (∀ t ∈ f.terms, i < D * t.1 ∨ D * t.1 + D ≤ i) →
        f.multiplyHessianAdd alpha x y i = y i)
    ∧ (f.model = none → ∀ i : ℕ, f.multiplyHessianAdd alpha x y i
        = y i + (f.terms.map (fun t =>
            if h : D * t.1 ≤ i ∧ i - D * t.1 < D then
              Matrix.vecMul (fun r => alpha *
                  ((f.terms.map (fun s : ℕ × Matrix (Fin f.rows) (Fin D) ℚ => s.2.mulVec (xseg D x s.1))).sum) r)
                t.2 ⟨i - D * t.1, h.2⟩
            else 0)).sum)
    ∧ (∀ m, f.model = some m → ∀ i : ℕ, f.multiplyHessianAdd alpha x y i
        = y i + (f.terms.map (fun t =>
            if h : D * t.1 ≤ i ∧ i - D * t.1 < D then
              Matrix.vecMul (fun r => alpha *
                  (m.whiten (m.whiten
                    ((f.terms.map (fun s : ℕ × Matrix (Fin f.rows) (Fin D) ℚ => s.2.mulVec (xseg D x s.1))).sum))) r)
                t.2 ⟨i - D * t.1, h.2⟩
            else 0)).sum) := by
  have hAx : (f.terms.foldl (fun acc t => acc + t.2.mulVec (xseg D x t.1))
      (0 : Fin f.rows → ℚ)) = (f.terms.map
        (fun s : ℕ × Matrix (Fin f.rows) (Fin D) ℚ => s.2.mulVec (xseg D x s.1))).sum := by
    rw [list_foldl_add]
    simp
  have hnone : f.model = none → ∀ i : ℕ, f.multiplyHessianAdd alpha x y i
      = y i + (f.terms.map (fun t =>
          if h : D * t.1 ≤ i ∧ i - D * t.1 < D then
            Matrix.vecMul (fun r => alpha *
                ((f.terms.map (fun s : ℕ × Matrix (Fin f.rows) (Fin D) ℚ => s.2.mulVec (xseg D x s.1))).sum) r)
              t.2 ⟨i - D * t.1, h.2⟩
          else 0)).sum := by
    intro hm i
    unfold RegularJacobianFactor.multiplyHessianAdd
    by_cases hemp : f.terms.isEmpty
    · have h0 : f.terms = [] := by simpa using hemp
      simp [h0]
    · rw [if_neg hemp]
      simp only [hm]
      rw [scatter_foldl_apply]
      congr 1
      apply congrArg List.sum
      apply List.map_congr_left
      intro t _ht
      by_cases hseg : D * t.1 ≤ i ∧ i - D * t.1 < D
      · rw [dif_pos hseg, dif_pos hseg]
        rw [Matrix.mulVec_transpose]
        rw [hAx]
      · rw [dif_neg hseg, dif_neg hseg]
  have hsome : ∀ m, f.model = some m → ∀ i : ℕ, f.multiplyHessianAdd alpha x y i
      = y i + (f.terms.map (fun t =>
          if h : D * t.1 ≤ i ∧ i - D * t.1 < D then
            Matrix.vecMul (fun r => alpha *
                (m.whiten (m.whiten
                  ((f.terms.map (fun s : ℕ × Matrix (Fin f.rows) (Fin D) ℚ => s.2.mulVec (xseg D x s.1))).sum))) r)
              t.2 ⟨i - D * t.1, h.2⟩
          else 0)).sum := by
    intro m hm i
    unfold RegularJacobianFactor.multiplyHessianAdd
    by_cases hemp : f.terms.isEmpty
    · have h0 : f.terms = [] := by simpa using hemp
      simp [h0]
    · rw [if_neg hemp]
      simp only [hm]
      rw [scatter_foldl_apply]
      congr 1
      apply congrArg List.sum
      apply List.map_congr_left
      intro t _ht
      by_cases hseg : D * t.1 ≤ i ∧ i - D * t.1 < D
      · rw [dif_pos hseg, dif_pos hseg]
        rw [Matrix.mulVec_transpose]
        rw [hAx]
      · rw [dif_neg hseg, dif_neg hseg]
  refine ⟨?_, ?_, hnone, hsome⟩
  · intro h0
    unfold RegularJacobianFactor.multiplyHessianAdd
    simp [h0]
  · intro i hout
    cases hm : f.model with
    | none =>
      rw [hnone hm i]
      have hz : ∀ z ∈ (f.terms.map (fun t =>
          if h : D * t.1 ≤ i ∧ i - D * t.1 < D then
            Matrix.vecMul (fun r => alpha *
                ((f.terms.map (fun s : ℕ × Matrix (Fin f.rows) (Fin D) ℚ => s.2.mulVec (xseg D x s.1))).sum) r)
              t.2 ⟨i - D * t.1, h.2⟩
          else 0)), z = 0 := by
        intro z hz
        rcases List.mem_map.mp hz with ⟨t, ht, rfl⟩
        have := hout t ht
        rw [dif_neg (by omega)]
      rw [List.sum_eq_zero hz, add_zero]
    | some m =>
      rw [hsome m hm i]
      have hz : ∀ z ∈ (f.terms.map (fun t =>
          if h : D * t.1 ≤ i ∧ i - D * t.1 < D then
            Matrix.vecMul (fun r => alpha *
                (m.whiten (m.whiten
                  ((f.terms.map (fun s : ℕ × Matrix (Fin f.rows) (Fin D) ℚ => s.2.mulVec (xseg D x s.1))).sum))) r)
              t.2 ⟨i - D * t.1, h.2⟩
          else 0)), z = 0 := by
        intro z hz
        rcases List.mem_map.mp hz with ⟨t, ht, rfl⟩
        have := hout t ht
        rw [dif_neg (by omega)]
      rw [List.sum_eq_zero hz, add_zero]

/-- C5 witness: for the concrete one-term factor on key 1, index 0 lies
outside the key segment and the buffer entry there is unchanged. -/
theorem multiplyHessianAdd_correct_witness :
    (∀ t ∈ hdFactor.terms, (0:ℕ) < 1 * t.1 ∨ 1 * t.1 + 1 ≤ 0)
    ∧ hdFactor.multiplyHessianAdd 2 (fun _ => 1) (fun _ => 0) 0 = 0 :=
  ⟨by decide, (multiplyHessianAdd_correct hdFactor 2 (fun _ => 1) (fun _ => 0)).2.1 0 (by decide)⟩

/-- C6: evaluating the raw hessianDiagonal of the factor whose single term
has key 1 and block [1]: the squared column norm 1 is added at buffer offset
D * 0 = 0 (the position of the term in the factor), not at the Key-derived
offset D * 1 = 1 as the claim states; the buffer at offset 1 stays 0. -/
theorem hessianDiagonalRaw_uses_position_offset :
    hdFactor.hessianDiagonalRaw (fun _ => 0) 0 = 1
    ∧ hdFactor.hessianDiagonalRaw (fun _ => 0) 1 = 0 := by
  unfold RegularJacobianFactor.hessianDiagonalRaw hdFactor
  constructor <;>
  · rw [scatter_foldl_gen]
    norm_num [List.enum, List.enumFrom, Matrix.of_apply]

/-- C8: the raw-memory gradientAtZero leaves every entry of the buffer
unchanged (its body is commented out in the source). -/
theorem gradientAtZeroRaw_id {D : ℕ} (f : RegularJacobianFactor D) (d : ℕ → ℚ) :
    f.gradientAtZeroRaw d = d := rfl


/-- C2: at an active evaluation with a successful projection, linearize
returns the factor whose residual is the negated reprojection error; when a
non-null, non-unit model is attached both Jacobian blocks and the residual
are whitened by it; a constrained model is carried as its unit variant, and
otherwise no model is carried. -/
theorem linearize_correct {DimC DimL : ℕ} (f : GeneralSFMFactor DimC DimL)
    (pred : Fin 2 → ℚ) (H1 : Matrix (Fin 2) (Fin DimC) ℚ)
    (H2 : Matrix (Fin 2) (Fin DimL) ℚ) :
    (f.model = none →
      f.linearize true (.ok pred H1 H2)
        = some ⟨f.key1, H1, f.key2, H2, fun i => -(pred i - f.measured i), none⟩)
    ∧ (∀ m, f.model = some m → m.isUnit = true →
      f.linearize true (.ok pred H1 H2)
        = some ⟨f.key1, H1, f.key2, H2, fun i => -(pred i - f.measured i), none⟩)
    ∧ (∀ m, f.model = some m → m.isUnit = false → m.isConstrained = false →
      f.linearize true (.ok pred H1 H2)
        = some ⟨f.key1, m.whitenMat H1, f.key2, m.whitenMat H2,
            m.whiten (fun i => -(pred i - f.measured i)), none⟩)
    ∧ (∀ m, f.model = some m → m.isUnit = false → m.isConstrained = true →
      f.linearize true (.ok pred H1 H2)
        = some ⟨f.key1, m.whitenMat H1, f.key2, m.whitenMat H2,
            m.whiten (fun i => -(pred i - f.measured i)), some m.unitVariant⟩) := by
  refine ⟨?_, ?_, ?_, ?_⟩
  · intro hm
    simp [GeneralSFMFactor.linearize, hm]
  · intro m hm hu
    cases m with
    | unit => simp [GeneralSFMFactor.linearize, hm, NoiseModel.isUnit, NoiseModel.isConstrained]
    | diagonal s => simp [NoiseModel.isUnit] at hu
    | constrained s z => simp [NoiseModel.isUnit] at hu
  · intro m hm hu hc
    cases m with
    | unit => simp [NoiseModel.isUnit] at hu
    | diagonal s =>
      simp [GeneralSFMFactor.linearize, hm, NoiseModel.isUnit, NoiseModel.isConstrained]
    | constrained s z => simp [NoiseModel.isConstrained] at hc
  · intro m hm hu hc
    cases m with
    | unit => simp [NoiseModel.isUnit] at hu
    | diagonal s => simp [NoiseModel.isConstrained] at hc
    | constrained s z =>
      simp [GeneralSFMFactor.linearize, hm, NoiseModel.isUnit, NoiseModel.isConstrained]

/-- C2 witness: the diagonal-model branch at a concrete factor. -/
theorem linearize_correct_witness :
    (sfmDiag.model = some diagEx ∧ diagEx.isUnit = false ∧ diagEx.isConstrained = false)
    ∧ sfmDiag.linearize true (.ok ![1, 1] 0 0)
      = some ⟨sfmDiag.key1, diagEx.whitenMat 0, sfmDiag.key2, diagEx.whitenMat 0,
          diagEx.whiten (fun i => -((![1, 1] : Fin 2 → ℚ) i - sfmDiag.measured i)), none⟩ :=
  ⟨⟨rfl, rfl, rfl⟩, (linearize_correct sfmDiag ![1, 1] 0 0).2.2.1 diagEx rfl rfl rfl⟩

/-- C3: updateHessian on a factor with a constrained model reports the
invalid-operation error and returns the accumulator exactly unchanged (the
source throws before any block write); for unit, null and non-constrained
diagonal models the call succeeds. -/
theorem updateHessian_constrained_rejected {DimC DimL : ℕ} (infoKeys : List ℕ)
    (f : BinaryJacobianFactor DimC DimL) (info : BlockInfo) :
    (∀ m, f.model = some m → m.isConstrained = true →
      f.updateHessian infoKeys info
        = (some BinaryJacobianFactor.updateHessianErrorMsg, info))
    ∧ (∀ m, f.model = some m → m.isConstrained = false →
      (f.updateHessian infoKeys info).1 = none)
    ∧ (f.model = none → (f.updateHessian infoKeys info).1 = none) := by
  refine ⟨?_, ?_, ?_⟩
  · intro m hm hc
    cases m with
    | unit => simp [NoiseModel.isConstrained] at hc
    | diagonal s => simp [NoiseModel.isConstrained] at hc
    | constrained s z =>
      simp [BinaryJacobianFactor.updateHessian, hm, NoiseModel.isUnit,
        NoiseModel.isConstrained]
  · intro m hm hc
    cases m with
    | unit =>
      simp [BinaryJacobianFactor.updateHessian, hm, NoiseModel.isUnit]
    | diagonal s =>
      simp [BinaryJacobianFactor.updateHessian, hm, NoiseModel.isUnit,
        NoiseModel.isConstrained]
    | constrained s z => simp [NoiseModel.isConstrained] at hc
  · intro hm
    simp [BinaryJacobianFactor.updateHessian, hm]

/-- C3 witness: the constrained model is rejected with the accumulator
returned untouched. -/
theorem updateHessian_constrained_rejected_witness :
    (bfConstr.model = some constrEx ∧ constrEx.isConstrained = true)
    ∧ bfConstr.updateHessian [0, 1] infoZ
      = (some BinaryJacobianFactor.updateHessianErrorMsg, infoZ) :=
  ⟨⟨rfl, rfl⟩,
    (updateHessian_constrained_rejected [0, 1] bfConstr infoZ).1 constrEx rfl rfl⟩

/-- C1 (code bug): two successive updateHessian calls on the zero
accumulator leave the scalar bias block equal to the second residual squared
norm only: the source assigns rather than accumulates at (slotB, slotB), so
the final value differs from the claimed sum of both squared norms. -/
theorem updateHessian_bias_overwritten :
    ((bf2.updateHessian [0, 1] (bf1.updateHessian [0, 1] infoZ).2).2).entries 2 2
      = (∑ r, bf2.b r * bf2.b r)
    ∧ ((∑ r, bf2.b r * bf2.b r) : ℚ)
      ≠ (∑ r, bf1.b r * bf1.b r) + (∑ r, bf2.b r * bf2.b r) := by
  constructor
  · simp [BinaryJacobianFactor.updateHessian, BinaryJacobianFactor.directUpdateHessian,
      BinaryJacobianFactor.updateABlocks, BlockInfo.addBlockSym, BlockInfo.addBlock,
      BlockInfo.setEntry, BlockInfo.off, BlockInfo.nBlocks, Slot, bf1, bf2, infoZ]
  · norm_num [bf1, bf2, Fin.sum_univ_two]

theorem multiplyHessianAdd_apply {D : ℕ} (f : RegularJacobianFactor D)
    (alpha : ℚ) (x y : ℕ → ℚ) (i : ℕ) :
    f.multiplyHessianAdd alpha x y i
      = y i + (f.terms.map (fun t =>
          if h : D * t.1 ≤ i ∧ i - D * t.1 < D then
            (t.2.transpose.mulVec (fun r => alpha * whiten2 f.model
              (f.terms.foldl (fun acc t => acc + t.2.mulVec (xseg D x t.1)) 0) r))
              ⟨i - D * t.1, h.2⟩
          else 0)).sum := by
  unfold RegularJacobianFactor.multiplyHessianAdd
  by_cases hemp : f.terms.isEmpty
  · have h0 : f.terms = [] := by simpa using hemp
    simp [h0]
  · rw [if_neg hemp]
    cases hm : f.model with
    | none =>
      simp only [hm, whiten2]
      rw [scatter_foldl_apply]
    | some m =>
      simp only [hm, whiten2]
      rw [scatter_foldl_apply]

/-- C4 (code bug): at a cheirality failure evaluateError and linearize do
return zero residual and zero Jacobian blocks without propagating the
exception, and the resulting factor contributes exactly zero to the
matrix-free product; but feeding it to updateHessian is NOT equivalent to
removing it: the source assigns the bias block, so the zero factor resets
the accumulated bias entry 1 back to 0. -/
theorem degenerate_factor_resets_bias :
    sfmEx.evaluateError .cheirality = (fun _ => 0, 0, 0)
    ∧ sfmEx.linearize true .cheirality = some zeroBJF
    ∧ (∀ x y : ℕ → ℚ, zeroBJF.toRegular.multiplyHessianAdd 1 x y = y)
    ∧ ((bf1.updateHessian [0, 1] infoZ).2).entries 2 2 = 1
    ∧ (zeroBJF.updateHessian [0, 1] (bf1.updateHessian [0, 1] infoZ).2).2.entries 2 2 = 0 := by
  refine ⟨rfl, rfl, ?_, ?_, ?_⟩
  · intro x y
    funext i
    rw [multiplyHessianAdd_apply]
    have hz : ∀ z ∈ (zeroBJF.toRegular.terms.map (fun t =>
        if h : 1 * t.1 ≤ i ∧ i - 1 * t.1 < 1 then
          (t.2.transpose.mulVec (fun r => 1 * whiten2 zeroBJF.toRegular.model
            (zeroBJF.toRegular.terms.foldl
              (fun acc t => acc + t.2.mulVec (xseg 1 x t.1)) 0) r))
            ⟨i - 1 * t.1, h.2⟩
        else 0)), z = 0 := by
      intro z hzm
      rcases List.mem_map.mp hzm with ⟨t, ht, rfl⟩
      have htz : t.2 = (0 : Matrix (Fin 2) (Fin 1) ℚ) := by
        have hcase : t = (0, (0 : Matrix (Fin 2) (Fin 1) ℚ)) ∨
            t = (1, (0 : Matrix (Fin 2) (Fin 1) ℚ)) := by
          simpa [zeroBJF, BinaryJacobianFactor.toRegular] using ht
        rcases hcase with h | h <;> rw [h]
      by_cases hseg : 1 * t.1 ≤ i ∧ i - 1 * t.1 < 1
      · rw [dif_pos hseg]
        simp [htz]
      · rw [dif_neg hseg]
    rw [List.sum_eq_zero hz, add_zero]
  · simp [BinaryJacobianFactor.updateHessian, BinaryJacobianFactor.directUpdateHessian,
      BinaryJacobianFactor.updateABlocks, BlockInfo.addBlockSym, BlockInfo.addBlock,
      BlockInfo.setEntry, BlockInfo.off, BlockInfo.nBlocks, Slot, bf1, infoZ,
      Fin.sum_univ_two]
  · simp [BinaryJacobianFactor.updateHessian, BinaryJacobianFactor.directUpdateHessian,
      BinaryJacobianFactor.updateABlocks, BlockInfo.addBlockSym, BlockInfo.addBlock,
      BlockInfo.setEntry, BlockInfo.off, BlockInfo.nBlocks, Slot, bf1, zeroBJF, infoZ,
      Fin.sum_univ_two]

theorem addBlock_dims {m k : ℕ} (info : BlockInfo) (si sj : ℕ)
    (M : Matrix (Fin m) (Fin k) ℚ) : (info.addBlock si sj M).dims = info.dims := rfl

theorem addBlockSym_dims {m k : ℕ} (info : BlockInfo) (si sj : ℕ)
    (M : Matrix (Fin m) (Fin k) ℚ) : (info.addBlockSym si sj M).dims = info.dims := by
  unfold BlockInfo.addBlockSym
  split <;> rfl

theorem setEntry_dims (info : BlockInfo) (r0 c0 : ℕ) (v : ℚ) :
    (info.setEntry r0 c0 v).dims = info.dims := rfl

theorem addBlock_off {m k : ℕ} (info : BlockInfo) (si sj : ℕ)
    (M : Matrix (Fin m) (Fin k) ℚ) (s : ℕ) :
    (info.addBlock si sj M).off s = info.off s := rfl

theorem addBlockSym_off {m k : ℕ} (info : BlockInfo) (si sj : ℕ)
    (M : Matrix (Fin m) (Fin k) ℚ) (s : ℕ) :
    (info.addBlockSym si sj M).off s = info.off s := by
  unfold BlockInfo.addBlockSym
  split <;> rfl

theorem off_eq {n D : ℕ} {info : BlockInfo}
    (hdims : info.dims = List.replicate n D ++ [1]) {s : ℕ} (hs : s ≤ n) :
    info.off s = D * s := by
  unfold BlockInfo.off
  rw [hdims, List.take_append_of_le_length (by simpa using hs), List.take_replicate,
    List.sum_replicate]
  simp [Nat.min_eq_left hs, Nat.mul_comm]

theorem nBlocks_eq {n D : ℕ} {info : BlockInfo}
    (hdims : info.dims = List.replicate n D ++ [1]) : info.nBlocks = n + 1 := by
  unfold BlockInfo.nBlocks
  rw [hdims]
  simp

theorem addBlock_entries {m k : ℕ} (info : BlockInfo) (si sj : ℕ)
    (M : Matrix (Fin m) (Fin k) ℚ) (r c : ℕ) :
    (info.addBlock si sj M).entries r c
      = info.entries r c
        + (if h : info.off si ≤ r ∧ r - info.off si < m
              ∧ info.off sj ≤ c ∧ c - info.off sj < k then
            M ⟨r - info.off si, h.2.1⟩ ⟨c - info.off sj, h.2.2.2⟩ else 0) := by
  unfold BlockInfo.addBlock
  dsimp only
  split <;> simp

theorem symm_setEntry_high {n D : ℕ} (info : BlockInfo) (p q : ℕ) (v : ℚ)
    (hp : n * D ≤ p) (_hq : n * D ≤ q) {i c : ℕ} (hi : i < n * D) (hc : c < n * D) :
    (info.setEntry p q v).symmEntry i c = info.symmEntry i c := by
  unfold BlockInfo.symmEntry BlockInfo.setEntry
  dsimp only
  by_cases hle : i ≤ c
  · rw [if_pos hle, if_pos hle, if_neg (by omega)]
  · rw [if_neg hle, if_neg hle, if_neg (by omega)]

theorem symm_addBlock_colHigh {n D m k : ℕ} (info : BlockInfo) (si sj : ℕ)
    (M : Matrix (Fin m) (Fin k) ℚ) (hcol : n * D ≤ info.off sj)
    {i c : ℕ} (hi : i < n * D) (hc : c < n * D) :
    (info.addBlock si sj M).symmEntry i c = info.symmEntry i c := by
  unfold BlockInfo.symmEntry
  by_cases hle : i ≤ c
  · rw [if_pos hle, if_pos hle, addBlock_entries, dif_neg (by omega), add_zero]
  · rw [if_neg hle, if_neg hle, addBlock_entries, dif_neg (by omega), add_zero]

theorem symm_addBlock_diag {D : ℕ} (info : BlockInfo) (s : ℕ)
    (M : Matrix (Fin D) (Fin D) ℚ) (hsym : ∀ a b, M a b = M b a)
    (o : ℕ) (hoff : info.off s = o) (i c : ℕ) :
    (info.addBlock s s M).symmEntry i c
      = info.symmEntry i c
        + (if h : o ≤ i ∧ i - o < D then
            (if h2 : o ≤ c ∧ c - o < D then
              M ⟨i - o, h.2⟩ ⟨c - o, h2.2⟩ else 0) else 0) := by
  unfold BlockInfo.symmEntry
  by_cases hle : i ≤ c
  · rw [if_pos hle, if_pos hle, addBlock_entries, hoff]
    by_cases h1 : o ≤ i ∧ i - o < D
    · by_cases h2 : o ≤ c ∧ c - o < D
      · rw [dif_pos (by omega), dif_pos h1, dif_pos h2]
      · rw [dif_neg (by omega), dif_pos h1, dif_neg h2]
    · rw [dif_neg (by omega), dif_neg h1]
  · rw [if_neg hle, if_neg hle, addBlock_entries, hoff]
    by_cases h1 : o ≤ i ∧ i - o < D
    · by_cases h2 : o ≤ c ∧ c - o < D
      · rw [dif_pos (by omega), dif_pos h1, dif_pos h2]
        exact congrArg _ (hsym _ _)
      · rw [dif_neg (by omega), dif_pos h1, dif_neg h2]
    · rw [dif_neg (by omega), dif_neg h1]

theorem symm_addBlock_offdiag {D : ℕ} (info : BlockInfo) (a b : ℕ)
    (M : Matrix (Fin D) (Fin D) ℚ) (oa ob : ℕ) (hsep : oa + D ≤ ob)
    (hoffa : info.off a = oa) (hoffb : info.off b = ob) (i c : ℕ) :
    (info.addBlock a b M).symmEntry i c
      = info.symmEntry i c
        + (if h : oa ≤ i ∧ i - oa < D then
            (if h2 : ob ≤ c ∧ c - ob < D then
              M ⟨i - oa, h.2⟩ ⟨c - ob, h2.2⟩ else 0) else 0)
        + (if h : ob ≤ i ∧ i - ob < D then
            (if h2 : oa ≤ c ∧ c - oa < D then
              M.transpose ⟨i - ob, h.2⟩ ⟨c - oa, h2.2⟩ else 0) else 0) := by
  unfold BlockInfo.symmEntry
  by_cases hle : i ≤ c
  · rw [if_pos hle, if_pos hle, addBlock_entries, hoffa, hoffb]
    have hib : ¬(ob ≤ i ∧ i - ob < D) ∨ ¬(oa ≤ c ∧ c - oa < D) := by omega
    by_cases h1 : oa ≤ i ∧ i - oa < D
    · by_cases h2 : ob ≤ c ∧ c - ob < D
      · rw [dif_pos (by omega), dif_pos h1, dif_pos h2]
        rcases hib with h3 | h3
        · rw [dif_neg h3]
          ring
        · by_cases h4 : ob ≤ i ∧ i - ob < D
          · rw [dif_pos h4, dif_neg h3]
            ring
          · rw [dif_neg h4]
            ring
      · rw [dif_neg (by omega), dif_pos h1, dif_neg h2]
        rcases hib with h3 | h3
        · rw [dif_neg h3]
          ring
        · by_cases h4 : ob ≤ i ∧ i - ob < D
          · rw [dif_pos h4, dif_neg h3]
            ring
          · rw [dif_neg h4]
            ring
    · rw [dif_neg (by omega), dif_neg h1]
      rcases hib with h3 | h3
      · rw [dif_neg h3]
        ring
      · by_cases h4 : ob ≤ i ∧ i - ob < D
        · rw [dif_pos h4, dif_neg h3]
          ring
        · rw [dif_neg h4]
          ring
  · rw [if_neg hle, if_neg hle, addBlock_entries, hoffa, hoffb]
    have hia : ¬(oa ≤ i ∧ i - oa < D) ∨ ¬(ob ≤ c ∧ c - ob < D) := by omega
    by_cases h3 : ob ≤ i ∧ i - ob < D
    · by_cases h4 : oa ≤ c ∧ c - oa < D
      · rw [dif_pos (by omega), dif_pos h3, dif_pos h4, Matrix.transpose_apply]
        rcases hia with h5 | h5
        · rw [dif_neg h5]
          ring
        · by_cases h6 : oa ≤ i ∧ i - oa < D
          · rw [dif_pos h6, dif_neg h5]
            ring
          · rw [dif_neg h6]
            ring
      · rw [dif_neg (by omega), dif_pos h3, dif_neg h4]
        rcases hia with h5 | h5
        · rw [dif_neg h5]
          ring
        · by_cases h6 : oa ≤ i ∧ i - oa < D
          · rw [dif_pos h6, dif_neg h5]
            ring
          · rw [dif_neg h6]
            ring
    · rw [dif_neg (by omega), dif_neg h3]
      rcases hia with h5 | h5
      · rw [dif_neg h5]
        ring
      · by_cases h6 : oa ≤ i ∧ i - oa < D
        · rw [dif_pos h6, dif_neg h5]
          ring
        · rw [dif_neg h6]
          ring

theorem addBlockSym_self {m k : ℕ} (info : BlockInfo) (s : ℕ)
    (M : Matrix (Fin m) (Fin k) ℚ) : info.addBlockSym s s M = info.addBlock s s M := by
  unfold BlockInfo.addBlockSym
  rw [if_pos le_rfl]

theorem dite_add_dite {p : Prop} [Decidable p] (f g : p → ℚ) :
    (dite p f fun _ => 0) + (dite p g fun _ => 0)
      = dite p (fun h => f h + g h) fun _ => 0 := by
  by_cases h : p <;> simp [h]

theorem sum_block_reindex {n D : ℕ} (x : ℕ → ℚ) {s : ℕ} (hs : s < n) (g : Fin D → ℚ) :
    ∑ c in Finset.range (n * D),
        (if h : D * s ≤ c ∧ c - D * s < D then g ⟨c - D * s, h.2⟩ else 0) * x c
      = ∑ k : Fin D, g k * x (D * s + k) := by
  have hbound : D * s + D ≤ n * D := by
    have h1 : D * (s + 1) ≤ D * n := Nat.mul_le_mul_left D (Nat.succ_le_of_lt hs)
    rw [Nat.mul_succ, Nat.mul_comm D n] at h1
    omega
  have hsub : Finset.Ico (D * s) (D * s + D) ⊆ Finset.range (n * D) := by
    intro c hc
    rw [Finset.mem_Ico] at hc
    rw [Finset.mem_range]
    omega
  rw [← Finset.sum_subset hsub (by
    intro c _hc hnot
    rw [Finset.mem_Ico] at hnot
    rw [dif_neg (by omega), zero_mul])]
  rw [Finset.sum_Ico_eq_sum_range]
  have hD : D * s + D - D * s = D := by omega
  rw [hD]
  have hcongr : ∀ k ∈ Finset.range D,
      (if h : D * s ≤ D * s + k ∧ D * s + k - D * s < D then
        g ⟨D * s + k - D * s, h.2⟩ else 0) * x (D * s + k)
      = (if hk : k < D then g ⟨k, hk⟩ * x (D * s + k) else 0) := by
    intro k hk
    rw [Finset.mem_range] at hk
    rw [dif_pos (by omega), dif_pos hk]
    congr 1
    exact congrArg g (Fin.eq_of_val_eq (by simp only [Fin.val_mk]; omega))
  rw [Finset.sum_congr rfl hcongr]
  rw [← Fin.sum_univ_eq_sum_range (fun k => if hk : k < D then g ⟨k, hk⟩ * x (D * s + k) else 0) D]
  apply Finset.sum_congr rfl
  intro k _
  rw [dif_pos k.2]

theorem sum_delta {n D : ℕ} (x : ℕ → ℚ) {b : ℕ} (hb : b < n) (oa : ℕ)
    (M : Matrix (Fin D) (Fin D) ℚ) (i : ℕ) :
    ∑ c in Finset.range (n * D),
        (if h : oa ≤ i ∧ i - oa < D then
          (if h2 : D * b ≤ c ∧ c - D * b < D then
            M ⟨i - oa, h.2⟩ ⟨c - D * b, h2.2⟩ else 0) else 0) * x c
      = (if h : oa ≤ i ∧ i - oa < D then
          (M.mulVec (xseg D x b)) ⟨i - oa, h.2⟩ else 0) := by
  by_cases h : oa ≤ i ∧ i - oa < D
  · simp only [dif_pos h]
    rw [sum_block_reindex x hb]
    simp [Matrix.mulVec, Matrix.dotProduct, xseg]
  · simp only [dif_neg h]
    simp

theorem symm_sum_addBlockSym_bias {n D m : ℕ} (x : ℕ → ℚ) (info : BlockInfo)
    (hdims : info.dims = List.replicate n D ++ [1]) {s : ℕ} (hs : s < n)
    (M : Matrix (Fin m) (Fin 1) ℚ) {sB : ℕ} (hsB : sB = n) {i : ℕ} (hi : i < n * D) :
    ∑ c in Finset.range (n * D),
        (info.addBlockSym s sB M).symmEntry i c * x c
      = ∑ c in Finset.range (n * D), info.symmEntry i c * x c := by
  have hoffn : info.off n = D * n := off_eq hdims le_rfl
  rw [hsB]
  unfold BlockInfo.addBlockSym
  rw [if_pos (le_of_lt hs)]
  apply Finset.sum_congr rfl
  intro c hc
  rw [Finset.mem_range] at hc
  rw [symm_addBlock_colHigh info s n M
    (by rw [hoffn]; exact le_of_eq (Nat.mul_comm n D)) hi hc]

theorem symm_sum_addBlockSym_biasDiag {n D : ℕ} (x : ℕ → ℚ) (info : BlockInfo)
    (hdims : info.dims = List.replicate n D ++ [1])
    (M : Matrix (Fin 1) (Fin 1) ℚ) {sB : ℕ} (hsB : sB = n) {i : ℕ} (hi : i < n * D) :
    ∑ c in Finset.range (n * D),
        (info.addBlockSym sB sB M).symmEntry i c * x c
      = ∑ c in Finset.range (n * D), info.symmEntry i c * x c := by
  have hoffn : info.off n = D * n := off_eq hdims le_rfl
  rw [hsB, addBlockSym_self]
  apply Finset.sum_congr rfl
  intro c hc
  rw [Finset.mem_range] at hc
  rw [symm_addBlock_colHigh info n n M
    (by rw [hoffn]; exact le_of_eq (Nat.mul_comm n D)) hi hc]

theorem symm_sum_addBlockSym_diagSlot {n D : ℕ} (x : ℕ → ℚ) (info : BlockInfo)
    (hdims : info.dims = List.replicate n D ++ [1]) {s : ℕ} (hs : s < n)
    (M : Matrix (Fin D) (Fin D) ℚ) (hsym : ∀ a b, M a b = M b a) (i : ℕ) :
    ∑ c in Finset.range (n * D), (info.addBlockSym s s M).symmEntry i c * x c
      = ∑ c in Finset.range (n * D), info.symmEntry i c * x c
        + (if h : D * s ≤ i ∧ i - D * s < D then
            (M.mulVec (xseg D x s)) ⟨i - D * s, h.2⟩ else 0) := by
  rw [addBlockSym_self]
  have hoff : info.off s = D * s := off_eq hdims hs.le
  have hpt := symm_addBlock_diag info s M hsym (D * s) hoff
  rw [Finset.sum_congr rfl (fun c _ => by rw [hpt i c, add_mul])]
  rw [Finset.sum_add_distrib]
  rw [sum_delta x hs (D * s) M i]

theorem symm_sum_addBlockSym_cross {n D : ℕ} (x : ℕ → ℚ) (info : BlockInfo)
    (hdims : info.dims = List.replicate n D ++ [1]) {a b : ℕ} (ha : a < n) (hb : b < n)
    (hne : a ≠ b) (M : Matrix (Fin D) (Fin D) ℚ) (i : ℕ) :
    ∑ c in Finset.range (n * D), (info.addBlockSym a b M).symmEntry i c * x c
      = ∑ c in Finset.range (n * D), info.symmEntry i c * x c
        + (if h : D * a ≤ i ∧ i - D * a < D then
            (M.mulVec (xseg D x b)) ⟨i - D * a, h.2⟩ else 0)
        + (if h : D * b ≤ i ∧ i - D * b < D then
            (M.transpose.mulVec (xseg D x a)) ⟨i - D * b, h.2⟩ else 0) := by
  have hoffa : info.off a = D * a := off_eq hdims ha.le
  have hoffb : info.off b = D * b := off_eq hdims hb.le
  unfold BlockInfo.addBlockSym
  by_cases hab : a ≤ b
  · have hab2 : a < b := lt_of_le_of_ne hab hne
    have hsep : D * a + D ≤ D * b := by
      have h1 : D * (a + 1) ≤ D * b := Nat.mul_le_mul_left D (Nat.succ_le_of_lt hab2)
      rw [Nat.mul_succ] at h1
      exact h1
    rw [if_pos hab]
    have hpt := symm_addBlock_offdiag info a b M (D * a) (D * b) hsep hoffa hoffb
    rw [Finset.sum_congr rfl (fun c _ => by rw [hpt i c, add_mul, add_mul])]
    rw [Finset.sum_add_distrib, Finset.sum_add_distrib]
    rw [sum_delta x hb (D * a) M i, sum_delta x ha (D * b) M.transpose i]
  · have hba : b < a := by omega
    have hsep : D * b + D ≤ D * a := by
      have h1 : D * (b + 1) ≤ D * a := Nat.mul_le_mul_left D (Nat.succ_le_of_lt hba)
      rw [Nat.mul_succ] at h1
      exact h1
    rw [if_neg hab]
    have hpt := symm_addBlock_offdiag info b a M.transpose (D * b) (D * a) hsep hoffb hoffa
    rw [Finset.sum_congr rfl (fun c _ => by rw [hpt i c, add_mul, add_mul])]
    rw [Finset.sum_add_distrib, Finset.sum_add_distrib]
    rw [sum_delta x ha (D * b) M.transpose i, sum_delta x hb (D * a) M.transpose.transpose i]
    rw [Matrix.transpose_transpose]
    ring

theorem transpose_mul_self_symm {r D : ℕ} (A : Matrix (Fin r) (Fin D) ℚ) :
    ∀ a b, (A.transpose * A) a b = (A.transpose * A) b a := by
  intro a b
  simp [Matrix.mul_apply, Matrix.transpose_apply, mul_comm]

theorem symm_sum_updateABlocks {n D : ℕ} (x : ℕ → ℚ)
    (f : BinaryJacobianFactor D D) (info : BlockInfo)
    (hdims : info.dims = List.replicate n D ++ [1])
    (hk1 : f.key1 < n) (hk2 : f.key2 < n) (hne : f.key1 ≠ f.key2)
    {i : ℕ} (hi : i < n * D) :
    ∑ c in Finset.range (n * D),
        (f.updateABlocks (List.range n) info).symmEntry i c * x c
      = ∑ c in Finset.range (n * D), info.symmEntry i c * x c
        + (if h : D * f.key1 ≤ i ∧ i - D * f.key1 < D then
            (f.A1.transpose.mulVec
              (f.A1.mulVec (xseg D x f.key1) + f.A2.mulVec (xseg D x f.key2)))
              ⟨i - D * f.key1, h.2⟩ else 0)
        + (if h : D * f.key2 ≤ i ∧ i - D * f.key2 < D then
            (f.A2.transpose.mulVec
              (f.A1.mulVec (xseg D x f.key1) + f.A2.mulVec (xseg D x f.key2)))
              ⟨i - D * f.key2, h.2⟩ else 0) := by
  have hs1 : Slot (List.range n) f.key1 = f.key1 := indexOf_range hk1
  have hs2 : Slot (List.range n) f.key2 = f.key2 := indexOf_range hk2
  have hd1 : (info.addBlockSym f.key1 f.key1 (f.A1.transpose * f.A1)).dims
      = List.replicate n D ++ [1] := by rw [addBlockSym_dims, hdims]
  have hd2 : ((info.addBlockSym f.key1 f.key1 (f.A1.transpose * f.A1)).addBlockSym
      f.key1 f.key2 (f.A1.transpose * f.A2)).dims = List.replicate n D ++ [1] := by
    rw [addBlockSym_dims, hd1]
  have hd3 : (((info.addBlockSym f.key1 f.key1 (f.A1.transpose * f.A1)).addBlockSym
      f.key1 f.key2 (f.A1.transpose * f.A2)).addBlockSym f.key1 (info.nBlocks - 1)
      (colVec (f.A1.transpose.mulVec f.b))).dims = List.replicate n D ++ [1] := by
    rw [addBlockSym_dims, hd2]
  have hd4 : ((((info.addBlockSym f.key1 f.key1 (f.A1.transpose * f.A1)).addBlockSym
      f.key1 f.key2 (f.A1.transpose * f.A2)).addBlockSym f.key1 (info.nBlocks - 1)
      (colVec (f.A1.transpose.mulVec f.b))).addBlockSym f.key2 f.key2
      (f.A2.transpose * f.A2)).dims = List.replicate n D ++ [1] := by
    rw [addBlockSym_dims, hd3]
  have hnb : info.nBlocks - 1 = n := by
    rw [nBlocks_eq hdims]
    omega
  unfold BinaryJacobianFactor.updateABlocks
  simp only [hs1, hs2]
  rw [symm_sum_addBlockSym_bias x _ hd4 hk2 _ hnb hi]
  rw [symm_sum_addBlockSym_diagSlot x _ hd3 hk2 _ (transpose_mul_self_symm f.A2) i]
  rw [symm_sum_addBlockSym_bias x _ hd2 hk1 _ hnb hi]
  rw [symm_sum_addBlockSym_cross x _ hd1 hk1 hk2 hne _ i]
  rw [symm_sum_addBlockSym_diagSlot x info hdims hk1 _ (transpose_mul_self_symm f.A1) i]
  rw [Matrix.transpose_mul, Matrix.transpose_transpose]
  have hcomb1 :
      (if h : D * f.key1 ≤ i ∧ i - D * f.key1 < D then
        ((f.A1.transpose * f.A1).mulVec (xseg D x f.key1)) ⟨i - D * f.key1, h.2⟩ else 0)
      + (if h : D * f.key1 ≤ i ∧ i - D * f.key1 < D then
        ((f.A1.transpose * f.A2).mulVec (xseg D x f.key2)) ⟨i - D * f.key1, h.2⟩ else 0)
      = (if h : D * f.key1 ≤ i ∧ i - D * f.key1 < D then
          (f.A1.transpose.mulVec
            (f.A1.mulVec (xseg D x f.key1) + f.A2.mulVec (xseg D x f.key2)))
            ⟨i - D * f.key1, h.2⟩ else 0) := by
    by_cases h : D * f.key1 ≤ i ∧ i - D * f.key1 < D
    · rw [dif_pos h, dif_pos h, dif_pos h]
      rw [Matrix.mulVec_add]
      rw [← Matrix.mulVec_mulVec (xseg D x f.key1) f.A1.transpose f.A1]
      rw [← Matrix.mulVec_mulVec (xseg D x f.key2) f.A1.transpose f.A2]
      simp
    · rw [dif_neg h, dif_neg h, dif_neg h, add_zero]
  have hcomb2 :
      (if h : D * f.key2 ≤ i ∧ i - D * f.key2 < D then
        ((f.A2.transpose * f.A1).mulVec (xseg D x f.key1)) ⟨i - D * f.key2, h.2⟩ else 0)
      + (if h : D * f.key2 ≤ i ∧ i - D * f.key2 < D then
        ((f.A2.transpose * f.A2).mulVec (xseg D x f.key2)) ⟨i - D * f.key2, h.2⟩ else 0)
      = (if h : D * f.key2 ≤ i ∧ i - D * f.key2 < D then
          (f.A2.transpose.mulVec
            (f.A1.mulVec (xseg D x f.key1) + f.A2.mulVec (xseg D x f.key2)))
            ⟨i - D * f.key2, h.2⟩ else 0) := by
    by_cases h : D * f.key2 ≤ i ∧ i - D * f.key2 < D
    · rw [dif_pos h, dif_pos h, dif_pos h]
      rw [Matrix.mulVec_add]
      rw [← Matrix.mulVec_mulVec (xseg D x f.key1) f.A2.transpose f.A1]
      rw [← Matrix.mulVec_mulVec (xseg D x f.key2) f.A2.transpose f.A2]
      simp
    · rw [dif_neg h, dif_neg h, dif_neg h, add_zero]
  rw [← hcomb1, ← hcomb2]
  ring

theorem updateABlocks_dims {DimC DimL : ℕ} (infoKeys : List ℕ)
    (f : BinaryJacobianFactor DimC DimL) (info : BlockInfo) :
    (f.updateABlocks infoKeys info).dims = info.dims := by
  unfold BinaryJacobianFactor.updateABlocks
  simp only [addBlockSym_dims]

theorem updateHessian_dims {DimC DimL : ℕ} (infoKeys : List ℕ)
    (f : BinaryJacobianFactor DimC DimL) (info : BlockInfo) :
    ((f.updateHessian infoKeys info).2).dims = info.dims := by
  unfold BinaryJacobianFactor.updateHessian
  cases f.model with
  | none =>
    simp only [BinaryJacobianFactor.directUpdateHessian, setEntry_dims, updateABlocks_dims]
  | some m =>
    by_cases hu : m.isUnit
    · simp only [hu, if_pos, BinaryJacobianFactor.directUpdateHessian, setEntry_dims,
        updateABlocks_dims]
    · by_cases hc : m.isConstrained
      · simp [hu, hc]
      · simp only [hu, hc, if_neg, Bool.false_eq_true]
        simp [BinaryJacobianFactor.genericUpdateHessian, addBlockSym_dims,
          updateABlocks_dims]

theorem symm_sum_direct {n D : ℕ} (x : ℕ → ℚ) (f : BinaryJacobianFactor D D)
    (info : BlockInfo) (hdims : info.dims = List.replicate n D ++ [1])
    (hk1 : f.key1 < n) (hk2 : f.key2 < n) (hne : f.key1 ≠ f.key2)
    {i : ℕ} (hi : i < n * D) :
    ∑ c in Finset.range (n * D),
        (f.directUpdateHessian (List.range n) info).symmEntry i c * x c
      = ∑ c in Finset.range (n * D), info.symmEntry i c * x c
        + (if h : D * f.key1 ≤ i ∧ i - D * f.key1 < D then
            (f.A1.transpose.mulVec
              (f.A1.mulVec (xseg D x f.key1) + f.A2.mulVec (xseg D x f.key2)))
              ⟨i - D * f.key1, h.2⟩ else 0)
        + (if h : D * f.key2 ≤ i ∧ i - D * f.key2 < D then
            (f.A2.transpose.mulVec
              (f.A1.mulVec (xseg D x f.key1) + f.A2.mulVec (xseg D x f.key2)))
              ⟨i - D * f.key2, h.2⟩ else 0) := by
  have hdA : (f.updateABlocks (List.range n) info).dims = List.replicate n D ++ [1] := by
    rw [updateABlocks_dims, hdims]
  have hoffB : (f.updateABlocks (List.range n) info).off (info.nBlocks - 1) = D * n := by
    have hnb : info.nBlocks - 1 = n := by
      rw [nBlocks_eq hdims]
      omega
    rw [hnb]
    exact off_eq hdA le_rfl
  unfold BinaryJacobianFactor.directUpdateHessian
  have hstep : ∑ c in Finset.range (n * D),
      ((f.updateABlocks (List.range n) info).setEntry
        ((f.updateABlocks (List.range n) info).off (info.nBlocks - 1))
        ((f.updateABlocks (List.range n) info).off (info.nBlocks - 1))
        (∑ r, f.b r * f.b r)).symmEntry i c * x c
      = ∑ c in Finset.range (n * D),
          (f.updateABlocks (List.range n) info).symmEntry i c * x c := by
    apply Finset.sum_congr rfl
    intro c hc
    rw [Finset.mem_range] at hc
    rw [symm_setEntry_high _ _ _ _
      (by rw [hoffB]; exact le_of_eq (Nat.mul_comm n D))
      (by rw [hoffB]; exact le_of_eq (Nat.mul_comm n D)) hi hc]
  rw [hstep]
  exact symm_sum_updateABlocks x f info hdims hk1 hk2 hne hi

theorem symm_sum_generic {n D : ℕ} (x : ℕ → ℚ) (f : BinaryJacobianFactor D D)
    (info : BlockInfo) (hdims : info.dims = List.replicate n D ++ [1])
    (hk1 : f.key1 < n) (hk2 : f.key2 < n) (hne : f.key1 ≠ f.key2)
    {i : ℕ} (hi : i < n * D) :
    ∑ c in Finset.range (n * D),
        (f.genericUpdateHessian (List.range n) info).symmEntry i c * x c
      = ∑ c in Finset.range (n * D), info.symmEntry i c * x c
        + (if h : D * f.key1 ≤ i ∧ i - D * f.key1 < D then
            (f.A1.transpose.mulVec
              (f.A1.mulVec (xseg D x f.key1) + f.A2.mulVec (xseg D x f.key2)))
              ⟨i - D * f.key1, h.2⟩ else 0)
        + (if h : D * f.key2 ≤ i ∧ i - D * f.key2 < D then
            (f.A2.transpose.mulVec
              (f.A1.mulVec (xseg D x f.key1) + f.A2.mulVec (xseg D x f.key2)))
              ⟨i - D * f.key2, h.2⟩ else 0) := by
  have hdA : (f.updateABlocks (List.range n) info).dims = List.replicate n D ++ [1] := by
    rw [updateABlocks_dims, hdims]
  have hnb : info.nBlocks - 1 = n := by
    rw [nBlocks_eq hdims]
    omega
  unfold BinaryJacobianFactor.genericUpdateHessian
  rw [symm_sum_addBlockSym_biasDiag x _ hdA _ hnb hi]
  exact symm_sum_updateABlocks x f info hdims hk1 hk2 hne hi

theorem whiten_unit {r : ℕ} (v : Fin r → ℚ) :
    (NoiseModel.unit : NoiseModel r).whiten v = v := by
  funext j
  simp [NoiseModel.whiten, NoiseModel.scale]

theorem whiten2_unit {r : ℕ} (v : Fin r → ℚ) :
    whiten2 (some (NoiseModel.unit : NoiseModel r)) v = v := by
  simp [whiten2, whiten_unit]

theorem whiten_add {r : ℕ} (m : NoiseModel r) (u v : Fin r → ℚ) :
    m.whiten (u + v) = m.whiten u + m.whiten v := by
  funext j
  simp [NoiseModel.whiten, mul_add]

theorem whitenMat_mulVec {r D : ℕ} (m : NoiseModel r)
    (A : Matrix (Fin r) (Fin D) ℚ) (u : Fin D → ℚ) :
    (m.whitenMat A).mulVec u = m.whiten (A.mulVec u) := by
  funext j
  simp [NoiseModel.whitenMat, NoiseModel.whiten, Matrix.mulVec, Matrix.dotProduct,
    Finset.mul_sum, mul_assoc]

theorem whitenMat_transpose_mulVec {r D : ℕ} (m : NoiseModel r)
    (A : Matrix (Fin r) (Fin D) ℚ) (v : Fin r → ℚ) :
    (m.whitenMat A).transpose.mulVec v = A.transpose.mulVec (m.whiten v) := by
  funext j
  simp only [Matrix.mulVec, Matrix.dotProduct, Matrix.transpose_apply,
    NoiseModel.whitenMat, NoiseModel.whiten, Matrix.of_apply]
  apply Finset.sum_congr rfl
  intro r _
  ring

theorem mha_toRegular_apply {D : ℕ} (f : BinaryJacobianFactor D D)
    (x y : ℕ → ℚ) (i : ℕ) :
    f.toRegular.multiplyHessianAdd 1 x y i
      = y i
        + (if h : D * f.key1 ≤ i ∧ i - D * f.key1 < D then
            (f.A1.transpose.mulVec (whiten2 f.model
              (f.A1.mulVec (xseg D x f.key1) + f.A2.mulVec (xseg D x f.key2))))
              ⟨i - D * f.key1, h.2⟩ else 0)
        + (if h : D * f.key2 ≤ i ∧ i - D * f.key2 < D then
            (f.A2.transpose.mulVec (whiten2 f.model
              (f.A1.mulVec (xseg D x f.key1) + f.A2.mulVec (xseg D x f.key2))))
              ⟨i - D * f.key2, h.2⟩ else 0) := by
  rw [multiplyHessianAdd_apply]
  simp only [BinaryJacobianFactor.toRegular, List.foldl_cons, List.foldl_nil,
    List.map_cons, List.map_nil, List.sum_cons, List.sum_nil, add_zero, zero_add,
    one_mul]
  ring

theorem symm_sum_factor_step {n D : ℕ} (x : ℕ → ℚ) (f : BinaryJacobianFactor D D)
    (info : BlockInfo) (hdims : info.dims = List.replicate n D ++ [1])
    (hk1 : f.key1 < n) (hk2 : f.key2 < n) (hne : f.key1 ≠ f.key2)
    (hmOK : modelOK f.model = true) {i : ℕ} (hi : i < n * D) :
    ∑ c in Finset.range (n * D),
        ((f.updateHessian (List.range n) info).2).symmEntry i c * x c
      = ∑ c in Finset.range (n * D), info.symmEntry i c * x c
        + (if h : D * f.key1 ≤ i ∧ i - D * f.key1 < D then
            (f.A1.transpose.mulVec (whiten2 f.model
              (f.A1.mulVec (xseg D x f.key1) + f.A2.mulVec (xseg D x f.key2))))
              ⟨i - D * f.key1, h.2⟩ else 0)
        + (if h : D * f.key2 ≤ i ∧ i - D * f.key2 < D then
            (f.A2.transpose.mulVec (whiten2 f.model
              (f.A1.mulVec (xseg D x f.key1) + f.A2.mulVec (xseg D x f.key2))))
              ⟨i - D * f.key2, h.2⟩ else 0) := by
  cases hm : f.model with
  | none =>
    rw [hm] at hmOK
    simp [modelOK] at hmOK
  | some m =>
    cases m with
    | unit =>
      unfold BinaryJacobianFactor.updateHessian
      rw [hm]
      simp only [NoiseModel.isUnit, if_pos]
      rw [symm_sum_direct x f info hdims hk1 hk2 hne hi, whiten2_unit]
    | diagonal sg =>
      unfold BinaryJacobianFactor.updateHessian
      rw [hm]
      simp only [NoiseModel.isUnit, NoiseModel.isConstrained, Bool.false_eq_true,
        if_false]
      have hwf : f.whitenFactor
          = ⟨f.key1, (NoiseModel.diagonal sg).whitenMat f.A1, f.key2,
             (NoiseModel.diagonal sg).whitenMat f.A2,
             (NoiseModel.diagonal sg).whiten f.b, some .unit⟩ := by
        unfold BinaryJacobianFactor.whitenFactor
        rw [hm]
      rw [hwf]
      rw [symm_sum_generic x
        ⟨f.key1, (NoiseModel.diagonal sg).whitenMat f.A1, f.key2,
          (NoiseModel.diagonal sg).whitenMat f.A2,
          (NoiseModel.diagonal sg).whiten f.b, some .unit⟩ info hdims hk1 hk2 hne hi]
      dsimp only
      rw [whitenMat_mulVec, whitenMat_mulVec, ← whiten_add,
        whitenMat_transpose_mulVec, whitenMat_transpose_mulVec]
      rfl
    | constrained sg z =>
      rw [hm] at hmOK
      simp [modelOK] at hmOK

theorem symm_sum_fold {n D : ℕ} (x : ℕ → ℚ) (fs : List (BinaryJacobianFactor D D)) :
    ∀ (info : BlockInfo) (y : ℕ → ℚ),
      info.dims = List.replicate n D ++ [1] →
      (∀ f ∈ fs, f.key1 < n ∧ f.key2 < n ∧ f.key1 ≠ f.key2 ∧ modelOK f.model = true) →
      (∀ j : ℕ, j < n * D →
        ∑ c in Finset.range (n * D), info.symmEntry j c * x c = y j) →
      ∀ i : ℕ, i < n * D →
        ∑ c in Finset.range (n * D),
            (fs.foldl (fun acc f => (f.updateHessian (List.range n) acc).2)
              info).symmEntry i c * x c
          = (fs.foldl (fun z f => f.toRegular.multiplyHessianAdd 1 x z) y) i := by
  induction fs with
  | nil =>
    intro info y _hdims _hfs hrel i hi
    simpa using hrel i hi
  | cons g gs ih =>
    intro info y hdims hfs hrel i hi
    simp only [List.foldl_cons]
    have hg := hfs g (List.mem_cons_self g gs)
    apply ih
    · rw [updateHessian_dims, hdims]
    · intro f hf
      exact hfs f (List.mem_cons_of_mem g hf)
    · intro j hj
      rw [symm_sum_factor_step x g info hdims hg.1 hg.2.1 hg.2.2.1 hg.2.2.2 hj]
      rw [mha_toRegular_apply, hrel j hj]
    · exact hi

/-- C7: for every list of binary factors with unit or non-constrained
diagonal noise models, keys below n and distinct within each factor, the
information matrix assembled by folding updateHessian over the zero
accumulator, read as a symmetric matrix and restricted to the variable
blocks, multiplied by a vector x equals the output accumulated by the
matrix-free multiplyHessianAdd with alpha = 1 on the same x. -/
theorem assembled_info_times_x_eq_matrix_free {D n : ℕ}
    (fs : List (BinaryJacobianFactor D D))
    (hf : ∀ f ∈ fs, f.key1 < n ∧ f.key2 < n ∧ f.key1 ≠ f.key2 ∧ modelOK f.model = true)
    (x : ℕ → ℚ) {i : ℕ} (hi : i < n * D) :
    ∑ c in Finset.range (n * D), (assembleInfo n D fs).symmEntry i c * x c
      = accumulateProducts D fs x i := by
  unfold assembleInfo accumulateProducts
  exact symm_sum_fold x fs (zeroInfo n D) (fun _ => 0) rfl hf
    (by
      intro j _hj
      simp [zeroInfo, BlockInfo.symmEntry]) i hi

/-- C7 witness: one concrete unit-model factor, two variable slots. -/
theorem assembled_info_times_x_eq_matrix_free_witness :
    (∀ f ∈ [bfU], f.key1 < 2 ∧ f.key2 < 2 ∧ f.key1 ≠ f.key2
        ∧ modelOK f.model = true)
    ∧ ∑ c in Finset.range (2 * 1),
        (assembleInfo 2 1 [bfU]).symmEntry 0 c * (fun _ => (1 : ℚ)) c
      = accumulateProducts 1 [bfU] (fun _ => (1 : ℚ)) 0 :=
  ⟨by decide, assembled_info_times_x_eq_matrix_free [bfU] (by decide)
    (fun _ => (1 : ℚ)) (by decide)⟩

theorem innerLoop_update_comm {L : Type} [DecidableEq L] (ks : List (L × ℕ)) (l : L)
    (hl : l ∉ ks.map Prod.fst) (w : L → ℕ) (z : ℕ) :
    innerLoop ks (Function.update w l z)
      = (Function.update (innerLoop ks w).1 l z, (innerLoop ks w).2) := by
  induction ks generalizing w with
  | nil => simp [innerLoop]
  | cons k ks ih =>
    have hl2 : l ≠ k.1 ∧ l ∉ ks.map Prod.fst := by
      rw [List.map_cons, List.mem_cons] at hl
      push_neg at hl
      exact hl
    have hlk : l ≠ k.1 := hl2.1
    unfold innerLoop
    rw [Function.update_noteq hlk.symm]
    by_cases hbr : w k.1 + 1 < k.2
    · rw [if_pos (by rw [Function.update_same]; exact hbr),
        if_pos (by rw [Function.update_same]; exact hbr)]
      dsimp only
      rw [Function.update_comm hlk]
    · rw [if_neg (by rw [Function.update_same]; exact hbr),
        if_neg (by rw [Function.update_same]; exact hbr)]
      rw [Function.update_idem, Function.update_idem,
        Function.update_comm hlk, ih hl2.2]

theorem innerLoop_incList {L : Type} [DecidableEq L] :
    ∀ (ks : List (L × ℕ)) (ds : List ℕ), ds.length = ks.length →
      (ks.map Prod.fst).Nodup →
      innerLoop ks (assignDigits ks ds)
        = (assignDigits ks (incList (ks.map Prod.snd) ds).1,
           (incList (ks.map Prod.snd) ds).2) := by
  intro ks
  induction ks with
  | nil =>
    intro ds hlen _
    have h0 : ds = [] := List.length_eq_zero.mp (by simpa using hlen)
    subst h0
    simp [innerLoop, incList, assignDigits]
  | cons k ks ih =>
    intro ds hlen hnd
    cases ds with
    | nil => simp at hlen
    | cons d ds =>
      have hlen2 : ds.length = ks.length := by simpa using hlen
      rw [List.map_cons, List.nodup_cons] at hnd
      have hnotin : k.1 ∉ ks.map Prod.fst := hnd.1
      have hnd2 : (ks.map Prod.fst).Nodup := hnd.2
      show innerLoop (k :: ks) (Function.update (assignDigits ks ds) k.1 d) = _
      unfold innerLoop
      rw [Function.update_same]
      by_cases hbr : d + 1 < k.2
      · rw [if_pos (by rw [Function.update_idem, Function.update_same]; exact hbr)]
        have hinc : incList ((k :: ks).map Prod.snd) (d :: ds) = ((d + 1) :: ds, true) := by
          simp [incList, hbr]
        rw [hinc]
        dsimp only
        rw [Function.update_idem]
        rfl
      · rw [if_neg (by rw [Function.update_idem, Function.update_same]; exact hbr)]
        have hinc : incList ((k :: ks).map Prod.snd) (d :: ds)
            = (0 :: (incList (ks.map Prod.snd) ds).1, (incList (ks.map Prod.snd) ds).2) := by
          simp only [List.map_cons]
          rw [incList]
          rw [if_neg hbr]
        rw [hinc]
        dsimp only
        rw [Function.update_idem, Function.update_idem,
          innerLoop_update_comm ks k.1 hnotin, ih ds hlen2 hnd2]
        rfl

theorem radix_pos (c : ℕ) : 0 < radix c := by
  unfold radix
  omega

theorem radProd_cons (c : ℕ) (cs : List ℕ) :
    radProd (c :: cs) = radix c * radProd cs := by
  simp [radProd]

theorem radProd_pos (cs : List ℕ) : 0 < radProd cs := by
  induction cs with
  | nil => simp [radProd]
  | cons c cs ih =>
    rw [radProd_cons]
    exact Nat.mul_pos (radix_pos c) ih

theorem toDigits_length (cs : List ℕ) : ∀ k, (toDigits cs k).length = cs.length := by
  induction cs with
  | nil => intro k; rfl
  | cons c cs ih => intro k; simp [toDigits, ih]

theorem toDigits_zero (cs : List ℕ) : toDigits cs 0 = List.replicate cs.length 0 := by
  induction cs with
  | nil => rfl
  | cons c cs ih => simp [toDigits, ih, List.replicate_succ]

theorem succ_div_mod_lt {k c : ℕ} (h : k % c + 1 < c) :
    (k + 1) / c = k / c ∧ (k + 1) % c = k % c + 1 := by
  have hc : 0 < c := by omega
  have hq := Nat.div_add_mod k c
  have hsplit : k + 1 = k % c + 1 + c * (k / c) := by omega
  constructor
  · rw [hsplit, Nat.add_mul_div_left _ _ hc, Nat.div_eq_of_lt h, Nat.zero_add]
  · rw [hsplit, Nat.add_mul_mod_self_left, Nat.mod_eq_of_lt h]

theorem succ_div_mod_eq {k c : ℕ} (hc : 0 < c) (h : k % c + 1 = c) :
    (k + 1) / c = k / c + 1 ∧ (k + 1) % c = 0 := by
  have hq := Nat.div_add_mod k c
  have hsplit : k + 1 = c * (k / c + 1) := by
    rw [Nat.mul_succ]
    omega
  constructor
  · rw [hsplit, Nat.mul_div_cancel_left _ hc]
  · rw [hsplit, Nat.mul_mod_right]

theorem incList_toDigits : ∀ (cs : List ℕ) (k : ℕ), k + 1 < radProd cs →
    incList cs (toDigits cs k) = (toDigits cs (k + 1), true) := by
  intro cs
  induction cs with
  | nil =>
    intro k hk
    simp [radProd] at hk
  | cons c cs ih =>
    intro k hk
    rw [radProd_cons] at hk
    have hr : 0 < radix c := radix_pos c
    have hd : k % radix c < radix c := Nat.mod_lt _ hr
    show incList (c :: cs) (k % radix c :: toDigits cs (k / radix c)) = _
    by_cases hbr : k % radix c + 1 < c
    · have hrc : radix c = c := by
        unfold radix
        omega
      rw [incList, if_pos hbr]
      have hs := succ_div_mod_lt (k := k) (c := radix c) (by omega)
      show _ = ((k+1) % radix c :: toDigits cs ((k+1) / radix c), true)
      rw [hs.1, hs.2]
    · have hwrap : k % radix c + 1 = radix c := by
        unfold radix at *
        omega
      have hs := succ_div_mod_eq hr hwrap
      have hlt : k / radix c + 1 < radProd cs := by
        have hq := Nat.div_add_mod k (radix c)
        have hms : radix c * (k / radix c + 1) = radix c * (k / radix c) + radix c :=
          Nat.mul_succ _ _
        have hlt2 : radix c * (k / radix c + 1) < radix c * radProd cs := by omega
        exact Nat.lt_of_mul_lt_mul_left hlt2
      rw [incList, if_neg hbr]
      dsimp only
      rw [ih (k / radix c) hlt]
      show (0 :: toDigits cs (k / radix c + 1), true)
        = ((k+1) % radix c :: toDigits cs ((k+1) / radix c), true)
      rw [hs.1, hs.2]

theorem incList_last : ∀ (cs : List ℕ),
    (incList cs (toDigits cs (radProd cs - 1))).2 = false := by
  intro cs
  induction cs with
  | nil => rfl
  | cons c cs ih =>
    have hr : 0 < radix c := radix_pos c
    have hN : 0 < radProd cs := radProd_pos cs
    have hsplit : radProd (c :: cs) - 1 = (radix c - 1) + radix c * (radProd cs - 1) := by
      rw [radProd_cons]
      have h1 : radix c * radProd cs = radix c * (radProd cs - 1) + radix c := by
        rw [← Nat.mul_succ]
        congr 1
        omega
      omega
    have hmod : (radProd (c :: cs) - 1) % radix c = radix c - 1 := by
      rw [hsplit, Nat.add_mul_mod_self_left, Nat.mod_eq_of_lt (by omega)]
    have hdiv : (radProd (c :: cs) - 1) / radix c = radProd cs - 1 := by
      rw [hsplit, Nat.add_mul_div_left _ _ hr, Nat.div_eq_of_lt (by omega), Nat.zero_add]
    show (incList (c :: cs)
      ((radProd (c :: cs) - 1) % radix c :: toDigits cs ((radProd (c :: cs) - 1) / radix c))).2
        = false
    rw [hmod, hdiv, incList, if_neg (by unfold radix at *; omega)]
    exact ih

theorem fromDigits_toDigits : ∀ (cs : List ℕ) (k : ℕ), k < radProd cs →
    fromDigits cs (toDigits cs k) = k := by
  intro cs
  induction cs with
  | nil =>
    intro k hk
    simp [radProd] at hk
    simp [toDigits, fromDigits, hk]
  | cons c cs ih =>
    intro k hk
    rw [radProd_cons] at hk
    have hr : 0 < radix c := radix_pos c
    have hdiv : k / radix c < radProd cs := by
      rw [Nat.div_lt_iff_lt_mul hr]
      calc k < radix c * radProd cs := hk
        _ = radProd cs * radix c := Nat.mul_comm _ _
    show k % radix c + radix c * fromDigits cs (toDigits cs (k / radix c)) = k
    rw [ih _ hdiv]
    have := Nat.div_add_mod k (radix c)
    omega

theorem toDigits_fromDigits : ∀ (cs : List ℕ) (ds : List ℕ),
    ds.length = cs.length → (∀ p ∈ ds.zip cs, p.1 < p.2) →
    toDigits cs (fromDigits cs ds) = ds := by
  intro cs
  induction cs with
  | nil =>
    intro ds hlen _
    have h0 : ds = [] := List.length_eq_zero.mp (by simpa using hlen)
    subst h0
    rfl
  | cons c cs ih =>
    intro ds hlen hbd
    cases ds with
    | nil => simp at hlen
    | cons d ds =>
      have hd : d < c := hbd (d, c) (by simp [List.zip_cons_cons])
      have hrc : radix c = c := by
        unfold radix
        omega
      have hr : 0 < radix c := radix_pos c
      show toDigits (c :: cs) (d + radix c * fromDigits cs ds) = d :: ds
      have hmod : (d + radix c * fromDigits cs ds) % radix c = d := by
        rw [Nat.add_mul_mod_self_left, Nat.mod_eq_of_lt (by omega)]
      have hdiv : (d + radix c * fromDigits cs ds) / radix c = fromDigits cs ds := by
        rw [Nat.add_mul_div_left _ _ hr, Nat.div_eq_of_lt (by omega), Nat.zero_add]
      show (d + radix c * fromDigits cs ds) % radix c
          :: toDigits cs ((d + radix c * fromDigits cs ds) / radix c) = d :: ds
      rw [hmod, hdiv, ih ds (by simpa using hlen)
        (by intro p hp; exact hbd p (by simp [List.zip_cons_cons, hp]))]

theorem fromDigits_lt : ∀ (cs : List ℕ) (ds : List ℕ),
    ds.length = cs.length → (∀ p ∈ ds.zip cs, p.1 < p.2) →
    fromDigits cs ds < radProd cs := by
  intro cs
  induction cs with
  | nil =>
    intro ds _ _
    cases ds <;> simp [fromDigits, radProd]
  | cons c cs ih =>
    intro ds hlen hbd
    cases ds with
    | nil => simp at hlen
    | cons d ds =>
      have hd : d < c := hbd (d, c) (by simp [List.zip_cons_cons])
      have hrc : radix c = c := by
        unfold radix
        omega
      have hK : fromDigits cs ds < radProd cs :=
        ih ds (by simpa using hlen)
          (by intro p hp; exact hbd p (by simp [List.zip_cons_cons, hp]))
      show d + radix c * fromDigits cs ds < radProd (c :: cs)
      rw [radProd_cons]
      have h2 : radix c * (fromDigits cs ds + 1) ≤ radix c * radProd cs :=
        Nat.mul_le_mul_left _ (by omega)
      rw [Nat.mul_succ] at h2
      omega

theorem assignDigits_get {L : Type} [DecidableEq L] :
    ∀ (ks : List (L × ℕ)) (ds : List ℕ), (ks.map Prod.fst).Nodup →
      ∀ (j : ℕ) (hj : j < ks.length) (hjd : j < ds.length),
        assignDigits ks ds ((ks.get ⟨j, hj⟩).1) = ds.get ⟨j, hjd⟩ := by
  intro ks
  induction ks with
  | nil =>
    intro ds _ j hj
    simp at hj
  | cons k ks ih =>
    intro ds hnd j hj hjd
    cases ds with
    | nil => simp at hjd
    | cons d ds =>
      rw [List.map_cons, List.nodup_cons] at hnd
      cases j with
      | zero =>
        show assignDigits (k :: ks) (d :: ds) k.1 = d
        show Function.update (assignDigits ks ds) k.1 d k.1 = d
        rw [Function.update_same]
      | succ j =>
        have hj2 : j < ks.length := by simpa using hj
        have hjd2 : j < ds.length := by simpa using hjd
        have hne : (ks.get ⟨j, hj2⟩).1 ≠ k.1 := by
          intro heq
          exact hnd.1 (heq ▸ List.mem_map_of_mem Prod.fst (ks.get_mem j hj2))
        show Function.update (assignDigits ks ds) k.1 d ((ks.get ⟨j, hj2⟩).1)
            = (d :: ds).get ⟨j + 1, hjd⟩
        rw [Function.update_noteq hne]
        exact ih ds hnd.2 j hj2 hjd2

theorem outerLoop_run {L : Type} [DecidableEq L] (keys : List (L × ℕ))
    (hnd : (keys.map Prod.fst).Nodup) :
    ∀ (m k : ℕ) (acc : List (L → ℕ)), 0 < m →
      k + m = radProd (keys.map Prod.snd) →
      outerLoop keys m (assignDigits keys (toDigits (keys.map Prod.snd) k)) acc
        = some (acc ++ (List.range m).map (fun t =>
            assignDigits keys (toDigits (keys.map Prod.snd) (k + t)))) := by
  intro m
  induction m with
  | zero =>
    intro k acc hm
    omega
  | succ m ih =>
    intro k acc _hm hk
    have hlen : (toDigits (keys.map Prod.snd) k).length = keys.length := by
      rw [toDigits_length]
      simp
    unfold outerLoop
    rw [innerLoop_incList keys _ hlen hnd]
    cases m with
    | zero =>
      have hklast : k = radProd (keys.map Prod.snd) - 1 := by omega
      rw [hklast, incList_last]
      simp [List.range_succ]
    | succ m2 =>
      have hk1 : k + 1 < radProd (keys.map Prod.snd) := by omega
      rw [incList_toDigits _ _ hk1]
      simp only [if_pos]
      rw [ih (k + 1) (acc ++ [assignDigits keys (toDigits (keys.map Prod.snd) k)])
        (by omega) (by omega)]
      have hlist : (List.range (m2 + 1 + 1)).map
          (fun t => assignDigits keys (toDigits (keys.map Prod.snd) (k + t)))
          = assignDigits keys (toDigits (keys.map Prod.snd) k)
            :: (List.range (m2 + 1)).map
              (fun t => assignDigits keys (toDigits (keys.map Prod.snd) (k + 1 + t))) := by
        rw [List.range_succ_eq_map, List.map_cons, List.map_map]
        simp only [Nat.add_zero]
        congr 1
        apply List.map_congr_left
        intro t _
        simp only [Function.comp_apply]
        have harg : k + Nat.succ t = k + 1 + t := by omega
        rw [harg]
      rw [hlist]
      simp

theorem foldl_update_zero {L : Type} [DecidableEq L] :
    ∀ (ks : List (L × ℕ)) (v : L → ℕ), (∀ l, v l = 0) →
      ∀ l, (ks.foldl (fun w k => Function.update w k.1 0) v) l = 0 := by
  intro ks
  induction ks with
  | nil => intro v hv l; exact hv l
  | cons k ks ih =>
    intro v hv l
    simp only [List.foldl_cons]
    apply ih
    intro l2
    by_cases h : l2 = k.1
    · rw [h, Function.update_same]
    · rw [Function.update_noteq h]
      exact hv l2

theorem initValues_zero {L : Type} [DecidableEq L] (keys : List (L × ℕ)) (l : L) :
    initValues keys l = 0 :=
  foldl_update_zero keys (fun _ => 0) (fun _ => rfl) l

theorem assignDigits_replicate_zero {L : Type} [DecidableEq L] :
    ∀ (ks : List (L × ℕ)) (l : L), assignDigits ks (List.replicate ks.length 0) l = 0 := by
  intro ks
  induction ks with
  | nil => intro l; rfl
  | cons k ks ih =>
    intro l
    show Function.update (assignDigits ks (List.replicate ks.length 0)) k.1 0 l = 0
    by_cases h : l = k.1
    · rw [h, Function.update_same]
    · rw [Function.update_noteq h]
      exact ih l

theorem initValues_eq_stateZero {L : Type} [DecidableEq L] (keys : List (L × ℕ)) :
    initValues keys = assignDigits keys (toDigits (keys.map Prod.snd) 0) := by
  funext l
  rw [initValues_zero]
  rw [toDigits_zero]
  have hl : (keys.map Prod.snd).length = keys.length := by simp
  rw [hl, assignDigits_replicate_zero]

theorem dup_innerLoop (v : ℕ → ℕ) (hv : v 0 = 1) :
    innerLoop dupKeys v = (Function.update v 0 1, true) := by
  show innerLoop ((0,2) :: [(0,2)]) v = _
  unfold innerLoop
  rw [if_neg (by rw [Function.update_same, hv]; omega)]
  rw [Function.update_idem]
  unfold innerLoop
  rw [if_pos (by simp [Function.update_same])]
  simp [Function.update_idem, Function.update_same]

theorem dup_outerLoop_none :
    ∀ (fuel : ℕ) (v : ℕ → ℕ) (acc : List (ℕ → ℕ)), v 0 = 1 →
      outerLoop dupKeys fuel v acc = none := by
  intro fuel
  induction fuel with
  | zero => intro v acc _; rfl
  | succ fuel ih =>
    intro v acc hv
    unfold outerLoop
    rw [dup_innerLoop v hv]
    simp only [if_pos]
    exact ih _ _ (by rw [Function.update_same])

/-- C10 counterexample: the claim quantifies over every input list, but on
the duplicated-label list [(0,2),(0,2)] the source loop never reaches the
exit condition: no iteration budget makes the fuel-indexed while loop
return, i.e. the loop diverges. -/
theorem cartesianProduct_diverges_on_duplicate :
    ¬ ∃ (fuel : ℕ) (r : List (ℕ → ℕ)), CartesianProduct dupKeys fuel = some r := by
  rintro ⟨fuel, r, hr⟩
  unfold CartesianProduct at hr
  cases fuel with
  | zero => exact Option.noConfusion hr
  | succ fuel =>
    unfold outerLoop at hr
    have h0 : initValues dupKeys 0 = 0 := initValues_zero dupKeys 0
    have hinner : innerLoop dupKeys (initValues dupKeys)
        = (Function.update (initValues dupKeys) 0 1, true) := by
      show innerLoop ((0,2) :: [(0,2)]) (initValues dupKeys) = _
      unfold innerLoop
      rw [if_pos (by rw [Function.update_same, h0]; omega)]
      rw [h0]
    rw [hinner] at hr
    simp only [if_pos] at hr
    rw [dup_outerLoop_none fuel _ _ (by rw [Function.update_same])] at hr
    exact Option.noConfusion hr

/-- C10 (amended): for every input list with pairwise distinct labels,
including the empty list and lists containing a cardinality of 0,
CartesianProduct terminates (within the product of the effective radixes
many iterations) and its result is non-empty with an all-zero first
assignment. -/
theorem cartesianProduct_terminates_nodup {L : Type} [DecidableEq L]
    (keys : List (L × ℕ)) (hnd : (keys.map Prod.fst).Nodup) :
    ∃ out, CartesianProduct keys (radProd (keys.map Prod.snd)) = some out
      ∧ out ≠ []
      ∧ ∃ v0, out.head? = some v0 ∧ ∀ l, v0 l = 0 := by
  have hN : 0 < radProd (keys.map Prod.snd) := radProd_pos _
  have hrun := outerLoop_run keys hnd (radProd (keys.map Prod.snd)) 0 [] hN (by omega)
  refine ⟨(List.range (radProd (keys.map Prod.snd))).map
      (fun t => assignDigits keys (toDigits (keys.map Prod.snd) t)), ?_, ?_, ?_⟩
  · unfold CartesianProduct
    rw [initValues_eq_stateZero]
    rw [hrun]
    simp only [List.nil_append, Nat.zero_add]
  · simp only [ne_eq, List.map_eq_nil_iff, List.range_eq_nil]
    omega
  · refine ⟨assignDigits keys (toDigits (keys.map Prod.snd) 0), ?_, ?_⟩
    · have hr : List.range (radProd (keys.map Prod.snd))
          = 0 :: (List.range (radProd (keys.map Prod.snd) - 1)).map Nat.succ := by
        conv_lhs => rw [show radProd (keys.map Prod.snd)
          = (radProd (keys.map Prod.snd) - 1) + 1 from by omega]
        rw [List.range_succ_eq_map]
      rw [hr]
      simp
    · intro l
      rw [← initValues_eq_stateZero]
      exact initValues_zero keys l

theorem zip_map_bound {L : Type} :
    ∀ (keys : List (L × ℕ)) (g : L → ℕ), (∀ kp ∈ keys, g kp.1 < kp.2) →
      ∀ pr ∈ (keys.map (fun kp => g kp.1)).zip (keys.map Prod.snd), pr.1 < pr.2 := by
  intro keys
  induction keys with
  | nil => intro g _ pr hpr; simp at hpr
  | cons k ks ih =>
    intro g hg pr hpr
    rw [List.map_cons, List.map_cons, List.zip_cons_cons, List.mem_cons] at hpr
    rcases hpr with h | h
    · rw [h]
      exact hg k (List.mem_cons_self k ks)
    · exact ih g (fun kp hkp => hg kp (List.mem_cons_of_mem k hkp)) pr h

/-- C9: for distinct labels and cardinalities at least 1, CartesianProduct
returns exactly the product of the cardinalities assignments, pairwise
distinct on the listed labels, covering every combination below the
cardinalities, starting from the all-zero assignment, with the first listed
label cycling fastest (its value at position p is p mod its cardinality). -/
theorem cartesianProduct_enumerates {L : Type} [DecidableEq L]
    (keys : List (L × ℕ)) (hnd : (keys.map Prod.fst).Nodup)
    (hc : ∀ kp ∈ keys, 1 ≤ kp.2) :
    ∃ out, CartesianProduct keys ((keys.map Prod.snd).prod) = some out
      ∧ out.length = (keys.map Prod.snd).prod
      ∧ (∀ p q (hp : p < out.length) (hq : q < out.length), p ≠ q →
          ∃ kp ∈ keys, out.get ⟨p, hp⟩ kp.1 ≠ out.get ⟨q, hq⟩ kp.1)
      ∧ (∀ g : L → ℕ, (∀ kp ∈ keys, g kp.1 < kp.2) →
          ∃ (p : ℕ) (hp : p < out.length), ∀ kp ∈ keys, out.get ⟨p, hp⟩ kp.1 = g kp.1)
      ∧ (∃ v0, out.head? = some v0 ∧ ∀ l, v0 l = 0)
      ∧ (∀ a c ks2, keys = (a, c) :: ks2 →
          ∀ p (hp : p < out.length), out.get ⟨p, hp⟩ a = p % c) := by
  have hrad : radProd (keys.map Prod.snd) = (keys.map Prod.snd).prod := by
    unfold radProd
    congr 1
    have hmr : ∀ c ∈ keys.map Prod.snd, radix c = c := by
      intro c hcmem
      rcases List.mem_map.mp hcmem with ⟨kp, hkp, rfl⟩
      have := hc kp hkp
      unfold radix
      omega
    calc (keys.map Prod.snd).map radix = (keys.map Prod.snd).map id :=
          List.map_congr_left (fun c hcm => hmr c hcm)
      _ = keys.map Prod.snd := List.map_id _
  have hN : 0 < radProd (keys.map Prod.snd) := radProd_pos _
  have hcl : (keys.map Prod.snd).length = keys.length := by simp
  have hrun := outerLoop_run keys hnd (radProd (keys.map Prod.snd)) 0 [] hN (by omega)
  set N := radProd (keys.map Prod.snd) with hNdef
  refine ⟨(List.range N).map
      (fun t => assignDigits keys (toDigits (keys.map Prod.snd) t)), ?_, ?_, ?_, ?_, ?_, ?_⟩
  · unfold CartesianProduct
    rw [← hrad, initValues_eq_stateZero, hrun]
    simp only [List.nil_append, Nat.zero_add]
  · simp [hrad]
  · -- pairwise distinct
    intro p q hp hq hpq
    rw [List.length_map, List.length_range] at hp hq
    by_contra hall
    push_neg at hall
    have hget : ∀ (t : ℕ) (ht : t < N) (l : L),
        ((List.range N).map
          (fun t => assignDigits keys (toDigits (keys.map Prod.snd) t))).get
            ⟨t, by simpa using ht⟩ l
          = assignDigits keys (toDigits (keys.map Prod.snd) t) l := by
      intro t ht l
      congr 1
      rw [List.get_map]
      congr 1
      simp [List.get_range]
    have hdig : toDigits (keys.map Prod.snd) p = toDigits (keys.map Prod.snd) q := by
      apply List.ext_get (by rw [toDigits_length, toDigits_length])
      intro j hj1 hj2
      rw [toDigits_length, hcl] at hj1 hj2
      have hkey := List.get_mem keys j hj1
      have h1 := hall (keys.get ⟨j, hj1⟩) hkey
      rw [hget p hp _, hget q hq _] at h1
      rw [assignDigits_get keys _ hnd j hj1 (by rw [toDigits_length, hcl]; exact hj1)] at h1
      rw [assignDigits_get keys _ hnd j hj1 (by rw [toDigits_length, hcl]; exact hj1)] at h1
      exact h1
    have hpq2 : p = q := by
      have h1 := fromDigits_toDigits (keys.map Prod.snd) p hp
      have h2 := fromDigits_toDigits (keys.map Prod.snd) q hq
      rw [← h1, ← h2, hdig]
    exact hpq hpq2
  · -- coverage
    intro g hg
    have hbd := zip_map_bound keys g hg
    have hlen2 : (keys.map (fun kp => g kp.1)).length = (keys.map Prod.snd).length := by
      simp
    have hplt : fromDigits (keys.map Prod.snd) (keys.map (fun kp => g kp.1)) < N :=
      fromDigits_lt _ _ hlen2 hbd
    refine ⟨fromDigits (keys.map Prod.snd) (keys.map (fun kp => g kp.1)),
      by simpa using hplt, ?_⟩
    intro kp hkp
    rcases List.mem_iff_get.mp hkp with ⟨⟨j, hj⟩, hkpj⟩
    have hget : ∀ (t : ℕ) (ht : t < N) (l : L),
        ((List.range N).map
          (fun t => assignDigits keys (toDigits (keys.map Prod.snd) t))).get
            ⟨t, by simpa using ht⟩ l
          = assignDigits keys (toDigits (keys.map Prod.snd) t) l := by
      intro t ht l
      congr 1
      rw [List.get_map]
      congr 1
      simp [List.get_range]
    rw [hget _ hplt _]
    rw [toDigits_fromDigits _ _ hlen2 hbd]
    rw [← hkpj]
    rw [assignDigits_get keys _ hnd j hj (by simp [hj])]
    rw [List.get_map]
  · refine ⟨assignDigits keys (toDigits (keys.map Prod.snd) 0), ?_, ?_⟩
    · conv_lhs => rw [show N = (N - 1) + 1 from by omega]
      rw [List.range_succ_eq_map]
      simp
    · intro l
      rw [← initValues_eq_stateZero]
      exact initValues_zero keys l
  · -- first label fastest
    intro a c ks2 hkeys p hp
    rw [List.length_map, List.length_range] at hp
    have hget : ∀ (t : ℕ) (ht : t < N) (l : L),
        ((List.range N).map
          (fun t => assignDigits keys (toDigits (keys.map Prod.snd) t))).get
            ⟨t, by simpa using ht⟩ l
          = assignDigits keys (toDigits (keys.map Prod.snd) t) l := by
      intro t ht l
      congr 1
      rw [List.get_map]
      congr 1
      simp [List.get_range]
    rw [hget p hp a]
    have hc1 : 1 ≤ c := hc (a, c) (by rw [hkeys]; exact List.mem_cons_self _ _)
    have hrc : radix c = c := by
      unfold radix
      omega
    rw [hkeys]
    show assignDigits ((a, c) :: ks2)
        (toDigits (((a, c) :: ks2).map Prod.snd) p) a = p % c
    rw [List.map_cons]
    show Function.update (assignDigits ks2 (toDigits (ks2.map Prod.snd) (p / radix c)))
        a (p % radix c) a = p % c
    rw [Function.update_same, hrc]

/-- C9 witness: the enumeration theorem applied to two concrete keys. -/
theorem cartesianProduct_enumerates_witness :
    (([((0 : ℕ), 2), (1, 3)].map Prod.fst).Nodup
      ∧ (∀ kp ∈ [((0 : ℕ), 2), (1, 3)], 1 ≤ kp.2))
    ∧ ∃ out, CartesianProduct [((0 : ℕ), 2), (1, 3)]
          (([((0 : ℕ), 2), (1, 3)].map Prod.snd).prod) = some out
        ∧ out.length = ([((0 : ℕ), 2), (1, 3)].map Prod.snd).prod :=
  ⟨⟨by decide, by decide⟩, by
    obtain ⟨out, h1, h2, _⟩ :=
      cartesianProduct_enumerates [((0 : ℕ), 2), (1, 3)] (by decide) (by decide)
    exact ⟨out, h1, h2⟩⟩

/-- C10 witness: the amended termination theorem applied to concrete keys
that include a zero cardinality. -/
theorem cartesianProduct_terminates_nodup_witness :
    (([((0 : ℕ), 0), (1, 2)].map Prod.fst).Nodup)
    ∧ ∃ out, CartesianProduct [((0 : ℕ), 0), (1, 2)]
          (radProd ([((0 : ℕ), 0), (1, 2)].map Prod.snd)) = some out
        ∧ out ≠ [] ∧ ∃ v0, out.head? = some v0 ∧ ∀ l, v0 l = 0 :=
  ⟨by decide, cartesianProduct_terminates_nodup [((0 : ℕ), 0), (1, 2)] (by decide)⟩

end GtsamSpec
